import Mathlib

/-
  Verification development for the module-scaffolding tool
  (Source/BatchModuleCreation.py of PCGRuntimeUtilities).

  Python values that can appear in the module-definition table and in the
  plugin manifest (a JSON document) are modelled by `PyVal`.  Python dicts
  are modelled as insertion-ordered association lists with string keys;
  `dset` models `d[k] = v` (overwrite-in-place keeps the key's position,
  a fresh key is appended), matching CPython's insertion-order semantics.
-/

namespace BMC

inductive PyVal where
  | pnone : PyVal
  | pbool (b : Bool) : PyVal
  | pint (n : Int) : PyVal
  | pstr (s : String) : PyVal
  | plist (xs : List PyVal) : PyVal
  | pdict (fields : List (String × PyVal)) : PyVal

mutual

def pyDecEq : (a b : PyVal) → Decidable (a = b)
  | PyVal.pnone, PyVal.pnone => isTrue rfl
  | PyVal.pbool a, PyVal.pbool b =>
      match decEq a b with
      | isTrue h => isTrue (by rw [h])
      | isFalse h => isFalse (by intro hh; cases hh; exact h rfl)
  | PyVal.pint a, PyVal.pint b =>
      match decEq a b with
      | isTrue h => isTrue (by rw [h])
      | isFalse h => isFalse (by intro hh; cases hh; exact h rfl)
  | PyVal.pstr a, PyVal.pstr b =>
      match decEq a b with
      | isTrue h => isTrue (by rw [h])
      | isFalse h => isFalse (by intro hh; cases hh; exact h rfl)
  | PyVal.plist xs, PyVal.plist ys =>
      match pyListDecEq xs ys with
      | isTrue h => isTrue (by rw [h])
      | isFalse h => isFalse (by intro hh; cases hh; exact h rfl)
  | PyVal.pdict xs, PyVal.pdict ys =>
      match pyFieldsDecEq xs ys with
      | isTrue h => isTrue (by rw [h])
      | isFalse h => isFalse (by intro hh; cases hh; exact h rfl)
  | PyVal.pnone, PyVal.pbool _ => isFalse (by intro h; cases h)
  | PyVal.pnone, PyVal.pint _ => isFalse (by intro h; cases h)
  | PyVal.pnone, PyVal.pstr _ => isFalse (by intro h; cases h)
  | PyVal.pnone, PyVal.plist _ => isFalse (by intro h; cases h)
  | PyVal.pnone, PyVal.pdict _ => isFalse (by intro h; cases h)
  | PyVal.pbool _, PyVal.pnone => isFalse (by intro h; cases h)
  | PyVal.pbool _, PyVal.pint _ => isFalse (by intro h; cases h)
  | PyVal.pbool _, PyVal.pstr _ => isFalse (by intro h; cases h)
  | PyVal.pbool _, PyVal.plist _ => isFalse (by intro h; cases h)
  | PyVal.pbool _, PyVal.pdict _ => isFalse (by intro h; cases h)
  | PyVal.pint _, PyVal.pnone => isFalse (by intro h; cases h)
  | PyVal.pint _, PyVal.pbool _ => isFalse (by intro h; cases h)
  | PyVal.pint _, PyVal.pstr _ => isFalse (by intro h; cases h)
  | PyVal.pint _, PyVal.plist _ => isFalse (by intro h; cases h)
  | PyVal.pint _, PyVal.pdict _ => isFalse (by intro h; cases h)
  | PyVal.pstr _, PyVal.pnone => isFalse (by intro h; cases h)
  | PyVal.pstr _, PyVal.pbool _ => isFalse (by intro h; cases h)
  | PyVal.pstr _, PyVal.pint _ => isFalse (by intro h; cases h)
  | PyVal.pstr _, PyVal.plist _ => isFalse (by intro h; cases h)
  | PyVal.pstr _, PyVal.pdict _ => isFalse (by intro h; cases h)
  | PyVal.plist _, PyVal.pnone => isFalse (by intro h; cases h)
  | PyVal.plist _, PyVal.pbool _ => isFalse (by intro h; cases h)
  | PyVal.plist _, PyVal.pint _ => isFalse (by intro h; cases h)
  | PyVal.plist _, PyVal.pstr _ => isFalse (by intro h; cases h)
  | PyVal.plist _, PyVal.pdict _ => isFalse (by intro h; cases h)
  | PyVal.pdict _, PyVal.pnone => isFalse (by intro h; cases h)
  | PyVal.pdict _, PyVal.pbool _ => isFalse (by intro h; cases h)
  | PyVal.pdict _, PyVal.pint _ => isFalse (by intro h; cases h)
  | PyVal.pdict _, PyVal.pstr _ => isFalse (by intro h; cases h)
  | PyVal.pdict _, PyVal.plist _ => isFalse (by intro h; cases h)

def pyListDecEq : (a b : List PyVal) → Decidable (a = b)
  | [], [] => isTrue rfl
  | [], _ :: _ => isFalse (by intro h; cases h)
  | _ :: _, [] => isFalse (by intro h; cases h)
  | x :: xs, y :: ys =>
      match pyDecEq x y with
      | isTrue h1 =>
        match pyListDecEq xs ys with
        | isTrue h2 => isTrue (by rw [h1, h2])
        | isFalse h2 => isFalse (by intro hh; cases hh; exact h2 rfl)
      | isFalse h1 => isFalse (by intro hh; cases hh; exact h1 rfl)

def pyFieldsDecEq : (a b : List (String × PyVal)) → Decidable (a = b)
  | [], [] => isTrue rfl
  | [], _ :: _ => isFalse (by intro h; cases h)
  | _ :: _, [] => isFalse (by intro h; cases h)
  | (k, v) :: xs, (k', v') :: ys =>
      match decEq k k' with
      | isTrue hk =>
        match pyDecEq v v' with
        | isTrue h1 =>
          match pyFieldsDecEq xs ys with
          | isTrue h2 => isTrue (by rw [hk, h1, h2])
          | isFalse h2 => isFalse (by intro hh; cases hh; exact h2 rfl)
        | isFalse h1 => isFalse (by intro hh; cases hh; exact h1 rfl)
      | isFalse hk => isFalse (by intro hh; cases hh; exact hk rfl)

end

instance : DecidableEq PyVal := pyDecEq

abbrev Dict := List (String × PyVal)

abbrev Entry := List (String × PyVal)

/-- Lookup of a key in a dict: `d.get(k)` / `k in d`; first matching pair. -/
def dget : Dict → String → Option PyVal
  | [], _ => none
  | (k, v) :: rest, key => if k = key then some v else dget rest key

def hasKey (d : Dict) (key : String) : Bool :=
  (dget d key).isSome

/-- Python `d[key] = v`: overwrite in place if the key is present
    (its position is kept), otherwise append the new pair. -/
def dset (d : Dict) (key : String) (v : PyVal) : Dict :=
  if hasKey d key then
    d.map (fun p => if p.1 = key then (key, v) else p)
  else
    d ++ [(key, v)]

/-- Python `d.update(new)`: set each pair of `new`, in order. -/
def dictUpdate (d new : Dict) : Dict :=
  new.foldl (fun acc p => dset acc p.1 p.2) d

-- Python `repr` of a value, as used in the error messages (`f"... {v!r}"`).
mutual

def pyRepr : PyVal → String
  | PyVal.pnone => "None"
  | PyVal.pbool true => "True"
  | PyVal.pbool false => "False"
  | PyVal.pint n => toString n
  | PyVal.pstr s => "\x27" ++ s ++ "\x27"
  | PyVal.plist xs => "[" ++ pyReprList xs ++ "]"
  | PyVal.pdict fs => "\x7b" ++ pyReprFields fs ++ "\x7d"

def pyReprList : List PyVal → String
  | [] => ""
  | [x] => pyRepr x
  | x :: y :: xs => pyRepr x ++ ", " ++ pyReprList (y :: xs)

def pyReprFields : List (String × PyVal) → String
  | [] => ""
  | [(k, v)] => "\x27" ++ k ++ "\x27: " ++ pyRepr v
  | (k, v) :: p :: xs => "\x27" ++ k ++ "\x27: " ++ pyRepr v ++ ", " ++ pyReprFields (p :: xs)

end

-- -------------------------
-- Helpers (BatchModuleCreation.py lines 98-140)
-- -------------------------

/-- Loop body of `_dedupe_preserve_order`: `seen` is the membership set,
    `out` the accumulator.  Python's `if x` on a string is `x ≠ ""`. -/
def dedupeGo (seen : List String) (out : List String) : List String → List String
  | [] => out
  | x :: xs =>
    if x ≠ "" ∧ x ∉ seen then dedupeGo (x :: seen) (out ++ [x]) xs
    else dedupeGo seen out xs

def _dedupe_preserve_order (items : List String) : List String :=
  dedupeGo [] [] items

def _format_cs_string_array (items : List String) (indent : String) : String :=
  String.intercalate "\n" (items.map (fun x => indent ++ "\"" ++ x ++ "\","))

/-- Python `str.endswith`: suffix test on the character sequence. -/
def pyEndswith (s suffix : String) : Bool :=
  List.isSuffixOf suffix.data s.data

def _module_type (module_name : String) (is_runtime : Bool) : String :=
  if is_runtime then "Runtime"
  else if pyEndswith module_name "Editor" then "Editor"
  else "Developer"

/-- Checks that `xs` is a list whose members are all strings, returning them. -/
def asListOfStrings : List PyVal → Option (List String)
  | [] => some []
  | PyVal.pstr s :: rest => (asListOfStrings rest).map (fun ss => s :: ss)
  | _ => none

def _ensure_list_strings (value : PyVal) ( err_prefix : String) : Except String (List String) :=
  match value with
  | PyVal.pnone => Except.ok []
  | PyVal.plist xs =>
    (match asListOfStrings xs with
     | some ss => Except.ok ss
     | none => Except.error ( err_prefix ++ " must be a list[str]. Got: " ++ pyRepr (PyVal.plist xs)))
  | v => Except.error ( err_prefix ++ " must be a list[str]. Got: " ++ pyRepr v)

/-- The `f"Module '{name}' "` fragment opening every validation message. -/
def modMsg (name : String) : String :=
  "Module \x27" ++ name ++ "\x27 "

/-- One iteration of the `validate_definitions` loop for the pair `(name, entry)`. -/
def validateEntry (name : String) (entry : PyVal) : Except String Unit :=
  match entry with
  | PyVal.plist [is_runtime, desc, pub, priv] =>
    (match is_runtime with
     | PyVal.pbool _ =>
       (match desc with
        | PyVal.pstr _ =>
          (match _ensure_list_strings pub (modMsg name ++ "PublicDependencies") with
           | Except.ok _ =>
             (match _ensure_list_strings priv (modMsg name ++ "PrivateDependencies") with
              | Except.ok _ => Except.ok ()
              | Except.error e => Except.error e)
           | Except.error e => Except.error e)
        | d => Except.error (modMsg name ++ ("Description must be str. Got: " ++ pyRepr d)))
     | r => Except.error (modMsg name ++ ("IsRuntime must be bool. Got: " ++ pyRepr r)))
  | e => Except.error (modMsg name ++
      ("entry must be [IsRuntime, Desc, PublicDeps, PrivateDeps]. Got: " ++ pyRepr e))

def validate_definitions : List (String × PyVal) → Except String Unit
  | [] => Except.ok ()
  | (name, entry) :: rest =>
    match validateEntry name entry with
    | Except.ok _ => validate_definitions rest
    | Except.error e => Except.error e

/-- Boolean validity of a dependency field, mirroring `_ensure_list_strings`:
    `None` is accepted and treated as the empty list. -/
def depFieldOk : PyVal → Bool
  | PyVal.pnone => true
  | PyVal.plist xs => (asListOfStrings xs).isSome
  | _ => false

/-- Boolean validity of one table entry, mirroring the checks of
    `validate_definitions` for that entry. -/
def entryOk : PyVal → Bool
  | PyVal.plist [PyVal.pbool _, PyVal.pstr _, pub, priv] => depFieldOk pub && depFieldOk priv
  | _ => false

-- -------------------------
-- Templates (BatchModuleCreation.py lines 38-92), rendered by `.format`
-- -------------------------

def BUILD_CS_TEMPLATE_render (ModuleName PublicDeps PrivateDeps : String) : String :=
  "// Copyright Max Harris\n\nusing UnrealBuildTool;\n\npublic class " ++ ModuleName ++
  " : ModuleRules\n\x7b\n    public " ++ ModuleName ++
  "(ReadOnlyTargetRules Target) : base(Target)\n    \x7b\n        PCHUsage = ModuleRules.PCHUsageMode.UseExplicitOrSharedPCHs;\n\n        PublicDependencyModuleNames.AddRange(\n            new string[]\n            \x7b\n" ++
  PublicDeps ++
  "\n            \x7d\n        );\n\n        PrivateDependencyModuleNames.AddRange(\n            new string[]\n            \x7b\n" ++
  PrivateDeps ++
  "\n            \x7d\n        );\n    \x7d\n\x7d\n"

def MODULE_HEADER_TEMPLATE_render (ModuleName : String) : String :=
  "#pragma once\n\n#include \"Modules/ModuleManager.h\"\n\nclass F" ++ ModuleName ++
  " : public IModuleInterface\n\x7b\npublic:\n    virtual void StartupModule() override;\n    virtual void ShutdownModule() override;\n\x7d;\n"

def MODULE_CPP_TEMPLATE_render (ModuleName : String) : String :=
  "#include \"" ++ ModuleName ++ ".h\"\n\n#define LOCTEXT_NAMESPACE \"F" ++ ModuleName ++
  "Module\"\n\nvoid F" ++ ModuleName ++ "::StartupModule()\n\x7b\n\x7d\n\nvoid F" ++ ModuleName ++
  "::ShutdownModule()\n\x7b\n\x7d\n\n#undef LOCTEXT_NAMESPACE\n\nIMPLEMENT_MODULE(F" ++
  ModuleName ++ ", " ++ ModuleName ++ ")\n"

-- -------------------------
-- Manifest upsert (BatchModuleCreation.py lines 152-172)
-- -------------------------

/-- Association list used to model the `by_name` dict: a module-name value
    (`m["Name"]`, an arbitrary Python value) maps to the position in the
    `existing` array of the dict object it referred to. -/
def alookup : List (PyVal × Nat) → PyVal → Option Nat
  | [], _ => none
  | (k, v) :: rest, key => if k = key then some v else alookup rest key

def aset (m : List (PyVal × Nat)) (key : PyVal) (i : Nat) : List (PyVal × Nat) :=
  if (alookup m key).isSome then
    m.map (fun p => if p.1 = key then (key, i) else p)
  else
    m ++ [(key, i)]

/-- The `by_name` building loop: dict elements carrying a `"Name"` key are
    indexed by that name, last occurrence winning.  CPython aliases the dict
    object; here the object is identified by its position `i` in `existing`. -/
def by_name_go : Nat → List PyVal → List (PyVal × Nat) → List (PyVal × Nat)
  | _, [], acc => acc
  | i, m :: rest, acc =>
    match m with
    | PyVal.pdict d =>
      (match dget d "Name" with
       | some nm => by_name_go (i + 1) rest (aset acc nm i)
       | none => by_name_go (i + 1) rest acc)
    | _ => by_name_go (i + 1) rest acc

def by_name_build (existing : List PyVal) : List (PyVal × Nat) :=
  by_name_go 0 existing []

/-- In-place `by_name[name].update(new_m)`.  `by_name` only indexes dict
    elements, so the fall-through branch is unreachable on inputs produced
    by `by_name_build`. -/
def updateAt (v : PyVal) (newm : Entry) : PyVal :=
  match v with
  | PyVal.pdict d => PyVal.pdict (dictUpdate d newm)
  | other => other

/-- The upsert loop: `new_m["Name"]` raises `KeyError` when absent; a hit in
    `by_name` merges in place, a miss appends to the array. -/
def upsertLoop (byName : List (PyVal × Nat)) : List PyVal → List Entry → Except String (List PyVal)
  | arr, [] => Except.ok arr
  | arr, newm :: rest =>
    match dget newm "Name" with
    | none => Except.error "KeyError: \x27Name\x27"
    | some nm =>
      match alookup byName nm with
      | some i => upsertLoop byName (arr.set i (updateAt (arr.getD i PyVal.pnone) newm)) rest
      | none => upsertLoop byName (arr ++ [PyVal.pdict newm]) rest

/-- Sort key `x.get("Name", "")` of the final sort, as a string.  The
    `some non-string` branch is only reachable on inputs where CPython's
    sort would raise `TypeError` comparing the keys; `upsert_uplugin_modules`
    rejects those inputs via `nameOk` below. -/
def sortKey (e : Entry) : String :=
  match dget e "Name" with
  | some (PyVal.pstr s) => s
  | some _ => ""
  | none => ""

/-- The entry's `"Name"` value, if any, is a string, so that the sort keys
    of the final sort are pairwise comparable. -/
def nameOk (e : Entry) : Bool :=
  match dget e "Name" with
  | some (PyVal.pstr _) => true
  | some _ => false
  | none => true

/-- All array elements are dicts; a non-dict element makes the sort's key
    function `x.get("Name", "")` raise `AttributeError`. -/
def entriesOf : List PyVal → Option (List Entry)
  | [] => some []
  | PyVal.pdict d :: rest => (entriesOf rest).map (fun es => d :: es)
  | _ => none

/-- Lexicographic comparison of character sequences by code point — the
    comparison Python uses on strings. -/
def strLexLe : List Char → List Char → Bool
  | [], _ => true
  | _ :: _, [] => false
  | a :: as, b :: bs =>
    if a.toNat < b.toNat then true
    else if b.toNat < a.toNat then false
    else strLexLe as bs

def pyStrLe (s t : String) : Bool :=
  strLexLe s.data t.data

theorem strLexLe_total : ∀ (a b : List Char), strLexLe a b = true ∨ strLexLe b a = true
  | [], _ => Or.inl rfl
  | _ :: _, [] => Or.inr rfl
  | a :: as, b :: bs => by
    rw [strLexLe, strLexLe]
    by_cases h1 : a.toNat < b.toNat
    · left
      rw [if_pos h1]
    · by_cases h2 : b.toNat < a.toNat
      · right
        rw [if_pos h2]
      · rw [if_neg h1, if_neg h2, if_neg h2, if_neg h1]
        exact strLexLe_total as bs

theorem strLexLe_trans : ∀ (a b c : List Char),
    strLexLe a b = true → strLexLe b c = true → strLexLe a c = true
  | [], _, _ => fun _ _ => rfl
  | a :: as, [], c => fun h _ => by rw [strLexLe] at h; cases h
  | a :: as, b :: bs, [] => fun _ h => by rw [strLexLe] at h; cases h
  | a :: as, b :: bs, c :: cs => by
    intro h1 h2
    rw [strLexLe] at h1 h2 ⊢
    by_cases hab : a.toNat < b.toNat
    · by_cases hbc : b.toNat < c.toNat
      · rw [if_pos (by omega : a.toNat < c.toNat)]
      · by_cases hcb : c.toNat < b.toNat
        · rw [if_neg hbc, if_pos hcb] at h2
          cases h2
        · have : b.toNat = c.toNat := by omega
          rw [if_pos (by omega : a.toNat < c.toNat)]
    · by_cases hba : b.toNat < a.toNat
      · rw [if_neg hab, if_pos hba] at h1
        cases h1
      · have hab' : a.toNat = b.toNat := by omega
        rw [if_neg hab, if_neg hba] at h1
        by_cases hbc : b.toNat < c.toNat
        · rw [if_pos (by omega : a.toNat < c.toNat)]
        · by_cases hcb : c.toNat < b.toNat
          · rw [if_neg hbc, if_pos hcb] at h2
            cases h2
          · rw [if_neg hbc] at h2
            rw [if_neg hcb] at h2
            rw [if_neg (by omega : ¬a.toNat < c.toNat),
              if_neg (by omega : ¬c.toNat < a.toNat)]
            exact strLexLe_trans as bs cs h1 h2

/-- The sort order of `existing.sort(key=lambda x: x.get("Name", ""))`:
    ascending comparison of the string sort keys, by code point as in
    Python. -/
def keyLE (a b : Entry) : Prop :=
  pyStrLe (sortKey a) (sortKey b) = true

instance : DecidableRel keyLE :=
  fun a b => inferInstanceAs (Decidable (pyStrLe (sortKey a) (sortKey b) = true))

instance : IsTotal Entry keyLE :=
  ⟨fun a b => strLexLe_total (sortKey a).data (sortKey b).data⟩

instance : IsTrans Entry keyLE :=
  ⟨fun _ _ _ h1 h2 => strLexLe_trans _ _ _ h1 h2⟩

/-- Python's `list.sort` is a stable ascending sort; any stable sort
    produces the same list, and it is modelled here by the (stable)
    insertion sort. -/
def pySortByName (entries : List Entry) : List Entry :=
  List.insertionSort keyLE entries

/-- `upsert_uplugin_modules`: read `Modules` (default `[]`), reject a
    non-list, index by name, upsert each new entry, stable-sort by name,
    store the array back under `Modules`. -/
def upsert_uplugin_modules (uplugin : Dict) (module_entries : List Entry) : Except String Dict :=
  match (dget uplugin "Modules").getD (PyVal.plist []) with
  | PyVal.plist existing =>
    (match upsertLoop (by_name_build existing) existing module_entries with
     | Except.error e => Except.error e
     | Except.ok arr =>
       match entriesOf arr with
       | none => Except.error "AttributeError: get"
       | some entries =>
         if entries.all nameOk then
           Except.ok (dset uplugin "Modules"
             (PyVal.plist ((pySortByName entries).map PyVal.pdict)))
         else Except.error "TypeError: unorderable sort keys")
  | _ => Except.error "uplugin[\x27Modules\x27] must be a list."

-- -------------------------
-- Inputs (BatchModuleCreation.py lines 10-32)
-- -------------------------

def TARGET_ABSOLUTE_PATH_UPLUGIN_FILE : String :=
  "B:\\UnrealEngine5_Projects\\_repos5\\ProceduralPlugins\\Plugins\\PCGRuntimeUtilities\\PCGRuntimeUtils.uplugin"

def TARGET_ABSOLUTE_PATH_SOURCE : String :=
  "B:\\UnrealEngine5_Projects\\_repos5\\ProceduralPlugins\\Plugins\\PCGRuntimeUtilities\\Source"

def DEFAULT_PUBLIC_DEPENDENCIES : List String :=
  ["Core", "CoreUObject", "Engine", "ISMRuntimeCore", "GameplayTags"]

def DEFAULT_PRIVATE_DEPENDENCIES : List String := []

def pstrs (xs : List String) : PyVal :=
  PyVal.plist (xs.map PyVal.pstr)

def mkDef (is_runtime : Bool) (desc : String) (pub priv : List String) : PyVal :=
  PyVal.plist [PyVal.pbool is_runtime, PyVal.pstr desc, pstrs pub, pstrs priv]

def OUTPUT_MODULE_DEFINITIONS : List (String × PyVal) :=
  [("ISMRuntimePools", mkDef true "" [] []),
   ("ISMRuntimeSpatial", mkDef true "" [] []),
   ("ISMRuntimeResource", mkDef true "" [] []),
   ("ISMRuntimePhysics", mkDef true "" ["ISMRuntimePools", "PhysicsCore", "ISMRuntimeFeedbacks"] []),
   ("ISMRuntimeInteraction", mkDef true "" ["ISMRuntimeSpatial"] ["UMG", "Slate", "SlateCore"]),
   ("ISMRuntimeDebug", mkDef false "" []
      ["ISMRuntimePools", "ISMRuntimeSpatial", "ISMRuntimeResource", "ISMRuntimePhysics",
       "ISMRuntimeInteraction", "ISMRuntimeDamage", "ISMRuntimeFeedbacks"]),
   ("ISMRuntimeEditor", mkDef false ""
      ["UnrealEd", "ISMRuntimePools", "ISMRuntimeSpatial", "ISMRuntimeResource",
       "ISMRuntimePhysics", "ISMRuntimeInteraction", "ISMRuntimeDamage"]
      ["UMG", "Slate", "SlateCore"]),
   ("ISMRuntimeDamage", mkDef true "" ["ISMRuntimeFeedbacks"] []),
   ("ISMRuntimeCoreTests", mkDef true "" [] []),
   ("ISMRuntimeFeedbacks", mkDef true "" [] ["Niagara"]),
   ("ISMRuntimeDestruction", mkDef true "" ["ISMRuntimePools", "GeometryCollectionEngine"] [])]

-- -------------------------
-- Filesystem writer (BatchModuleCreation.py lines 174-197)
-- -------------------------

/-- The three files `write_module_files` writes, as (path, content) pairs,
    in write order.  The `mkdir` calls create directories only and have no
    observable file content; they are not modelled. -/
def write_module_files (source_root module_name : String)
    (public_deps private_deps : List String) : List (String × String) :=
  let module_root := source_root ++ "/" ++ module_name
  let public_dir := module_root ++ "/Public"
  let private_dir := module_root ++ "/Private"
  let build_cs_path := module_root ++ "/" ++ module_name ++ ".Build.cs"
  let header_path := public_dir ++ "/" ++ module_name ++ ".h"
  let cpp_path := private_dir ++ "/" ++ module_name ++ ".cpp"
  [(build_cs_path,
    BUILD_CS_TEMPLATE_render module_name
      (_format_cs_string_array public_deps "                ")
      (_format_cs_string_array private_deps "                ")),
   (header_path, MODULE_HEADER_TEMPLATE_render module_name),
   (cpp_path, MODULE_CPP_TEMPLATE_render module_name)]

-- -------------------------
-- Orchestrator (BatchModuleCreation.py lines 199-236)
-- -------------------------

/-- Observable filesystem side effects of a run. -/
inductive Effect where
  | fwrite (path : String) (content : String) : Effect
  | mwrite (path : String) (data : Dict) : Effect
deriving DecidableEq

/-- Merging of defaults with module-specific dependencies, as in the loop of
    `main`: public and private sides computed independently. -/
def module_merged (pubDefaults privDefaults pub_deps priv_deps : List String) :
    List String × List String :=
  (_dedupe_preserve_order (pubDefaults ++ pub_deps),
   _dedupe_preserve_order (privDefaults ++ priv_deps))

/-- Tuple unpacking of a table entry in the `main` loop.  After
    `validate_definitions` succeeded every entry has this shape. -/
def unpackEntry : PyVal → Option (Bool × String × PyVal × PyVal)
  | PyVal.plist [PyVal.pbool b, PyVal.pstr d, pub, priv] => some (b, d, pub, priv)
  | _ => none

/-- Python `list(deps)` as applied in `main`: `None` raises `TypeError`
    (`validate_definitions` accepts `None` but `main` then crashes on it);
    a validated list of strings converts to itself.  The remaining branches
    are unreachable after validation succeeded. -/
def depStrings : PyVal → Except String (List String)
  | PyVal.pnone => Except.error "TypeError: \x27NoneType\x27 object is not iterable"
  | PyVal.plist xs =>
    (match asListOfStrings xs with
     | some ss => Except.ok ss
     | none => Except.error "TypeError: unvalidated dependency list")
  | _ => Except.error "TypeError: object is not iterable"

/-- The manifest entry built for one module: fixed keys plus an optional
    `Description` when the description is non-empty. -/
def m_entry_of (module_name : String) (is_runtime : Bool) (desc : String) : Entry :=
  [("Name", PyVal.pstr module_name),
   ("Type", PyVal.pstr (_module_type module_name is_runtime)),
   ("LoadingPhase", PyVal.pstr "Default")] ++
  (if desc ≠ "" then [("Description", PyVal.pstr desc)] else [])

/-- Attempt a list of file writes in order against a fault model `failsAt`:
    returns the writes actually performed and whether all succeeded.  A
    failing write performs nothing and aborts the remainder. -/
def attemptWrites (failsAt : String → Bool) : List (String × String) → List (String × String) × Bool
  | [] => ([], true)
  | (p, c) :: rest =>
    if failsAt p then ([], false)
    else
      match attemptWrites failsAt rest with
      | (done, ok) => ((p, c) :: done, ok)

def fwrites (ws : List (String × String)) : List Effect :=
  ws.map (fun pc => Effect.fwrite pc.1 pc.2)

/-- The per-module loop of `main`: writes each module's files and collects
    its manifest entry.  On failure the error carries the effects performed
    before the abort. -/
def moduleLoop (source_root : String) (pubDefaults privDefaults : List String)
    (failsAt : String → Bool) :
    List (String × PyVal) → Except (List Effect × String) (List Effect × List Entry)
  | [] => Except.ok ([], [])
  | (module_name, entry) :: rest =>
    match unpackEntry entry with
    | none => Except.error ([], "ValueError: cannot unpack module entry")
    | some (is_runtime, desc, pub, priv) =>
      match depStrings pub with
      | Except.error e => Except.error ([], e)
      | Except.ok pub_deps =>
        match depStrings priv with
        | Except.error e => Except.error ([], e)
        | Except.ok priv_deps =>
          let merged := module_merged pubDefaults privDefaults pub_deps priv_deps
          let ws := write_module_files source_root module_name merged.1 merged.2
          match attemptWrites failsAt ws with
          | (done, false) => Except.error (fwrites done, "IOError: write failed")
          | (done, true) =>
            match moduleLoop source_root pubDefaults privDefaults failsAt rest with
            | Except.error (tr, e) => Except.error (fwrites done ++ tr, e)
            | Except.ok (tr, entries) =>
              Except.ok (fwrites done ++ tr, m_entry_of module_name is_runtime desc :: entries)

/-- The orchestration `main`, over explicit inputs (the source globals and
    the manifest as loaded from disk; the existence checks on the two paths
    are preconditions of the run and are not modelled).  Returns the trace
    of filesystem effects together with the outcome. -/
def mainRun (defs : List (String × PyVal)) (pubDefaults privDefaults : List String)
    (uplugin_path source_root : String) (uplugin : Dict) (failsAt : String → Bool) :
    List Effect × Except String Unit :=
  match validate_definitions defs with
  | Except.error e => ([], Except.error e)
  | Except.ok _ =>
    match moduleLoop source_root pubDefaults privDefaults failsAt defs with
    | Except.error (tr, e) => (tr, Except.error e)
    | Except.ok (tr, entries) =>
      match upsert_uplugin_modules uplugin entries with
      | Except.error e => (tr, Except.error e)
      | Except.ok d => (tr ++ [Effect.mwrite uplugin_path d], Except.ok ())

def fileWritesOf : List Effect → List (String × String)
  | [] => []
  | Effect.fwrite p c :: rest => (p, c) :: fileWritesOf rest
  | Effect.mwrite _ _ :: rest => fileWritesOf rest

def manifestWritesOf : List Effect → List Dict
  | [] => []
  | Effect.mwrite _ d :: rest => d :: manifestWritesOf rest
  | Effect.fwrite _ _ :: rest => manifestWritesOf rest

/-- The entries of the `Modules` array of a manifest (empty when absent or
    ill-shaped); used to state properties of upsert results. -/
def modulesEntriesOf (d : Dict) : List Entry :=
  match dget d "Modules" with
  | some (PyVal.plist xs) => (entriesOf xs).getD []
  | _ => []

-- ==================================================================
-- Theorems
-- ==================================================================

/-- Modelled from the spec, section 4.1: "concatenate `defaults` then
    `specific`, then remove duplicates keeping each name's first position,
    and drop empty/falsy entries" — a direct recursion keeping the first
    occurrence of each non-empty string. -/
def dedupeSpec : List String → List String
  | [] => []
  | x :: xs =>
    if x = "" then dedupeSpec xs
    else x :: dedupeSpec (xs.filter (fun y => y ≠ x))
termination_by l => l.length
decreasing_by
  all_goals simp only [List.length_cons]
  · omega
  · exact Nat.lt_succ_of_le (List.length_filter_le _ _)

theorem dedupeGo_eq (l : List String) : ∀ (seen out : List String),
    dedupeGo seen out l = out ++ dedupeSpec (l.filter (fun y => decide (y ∉ seen))) := by
  induction l with
  | nil => intro seen out; simp [dedupeGo, dedupeSpec]
  | cons x xs ih =>
    intro seen out
    by_cases hmem : x ∈ seen
    · have hcond : ¬(x ≠ "" ∧ x ∉ seen) := by simp [hmem]
      rw [dedupeGo, if_neg hcond, ih seen out]
      have : (x :: xs).filter (fun y => decide (y ∉ seen)) =
          xs.filter (fun y => decide (y ∉ seen)) := by
        simp [List.filter_cons, hmem]
      rw [this]
    · by_cases hx : x = ""
      · subst hx
        have hcond : ¬(("" : String) ≠ "" ∧ ("" : String) ∉ seen) := by simp
        rw [dedupeGo, if_neg hcond, ih seen out]
        have hfil : ("" :: xs).filter (fun y => decide (y ∉ seen)) =
            "" :: xs.filter (fun y => decide (y ∉ seen)) := by
          simp [List.filter_cons, hmem]
        rw [hfil, dedupeSpec, if_pos rfl]
      · have hcond : (x ≠ "" ∧ x ∉ seen) := ⟨hx, hmem⟩
        rw [dedupeGo, if_pos hcond, ih (x :: seen) (out ++ [x])]
        have hfil : (x :: xs).filter (fun y => decide (y ∉ seen)) =
            x :: xs.filter (fun y => decide (y ∉ seen)) := by
          simp [List.filter_cons, hmem]
        rw [hfil, dedupeSpec, if_neg hx, List.append_assoc, List.filter_filter]
        have harg : xs.filter (fun a => decide (a ≠ x) && decide (a ∉ seen)) =
            xs.filter (fun y => decide (y ∉ x :: seen)) := by
          apply List.filter_congr
          intro y _
          simp only [List.mem_cons, decide_not]
          by_cases hyx : y = x <;> by_cases hys : y ∈ seen <;> simp [hyx, hys]
        rw [harg, List.singleton_append]

/-- C3: for every pair of string lists, the dependency merge returns the
    concatenation of `defaults` then `specific` with duplicates removed
    keeping each name's first position and empty entries dropped, and in
    particular the two examples from the spec hold. -/
theorem dedupe_matches_spec (defaults specific : List String) :
    _dedupe_preserve_order (defaults ++ specific) = dedupeSpec (defaults ++ specific) ∧
    _dedupe_preserve_order (["A", "B"] ++ ["B", "C"]) = ["A", "B", "C"] ∧
    _dedupe_preserve_order (["A"] ++ ["", "B"]) = ["A", "B"] := by
  refine ⟨?_, by decide, by decide⟩
  rw [_dedupe_preserve_order, dedupeGo_eq]
  have : (defaults ++ specific).filter (fun y => decide (y ∉ ([] : List String))) =
      defaults ++ specific := by
    apply List.filter_eq_self.mpr
    intro a _
    simp
  rw [this, List.nil_append]

theorem pyEndswith_iff (s t : String) :
    pyEndswith s t = true ↔ ∃ pre : String, s = pre ++ t := by
  unfold pyEndswith
  rw [List.isSuffixOf_iff_suffix]
  constructor
  · rintro ⟨pre, hpre⟩
    refine ⟨⟨pre⟩, String.ext ?_⟩
    rw [String.data_append]
    exact hpre.symm
  · rintro ⟨pre, rfl⟩
    exact ⟨pre.data, (String.data_append pre t).symm⟩

/-- C5: the derived manifest `Type` is `"Runtime"` when `isRuntime` is
    true (for any name), otherwise `"Editor"` when the name ends with the
    literal suffix `"Editor"`, otherwise `"Developer"`. -/
theorem module_type_derivation (name : String) (r : Bool) :
    (r = true → _module_type name r = "Runtime") ∧
    (r = false → (∃ pre : String, name = pre ++ "Editor") → _module_type name r = "Editor") ∧
    (r = false → (¬ ∃ pre : String, name = pre ++ "Editor") → _module_type name r = "Developer") := by
  refine ⟨fun h => by simp [_module_type, h], fun h he => ?_, fun h he => ?_⟩
  · subst h
    have : pyEndswith name "Editor" = true := (pyEndswith_iff name "Editor").mpr he
    simp [_module_type, this]
  · subst h
    have : ¬ pyEndswith name "Editor" = true := fun hc => he ((pyEndswith_iff name "Editor").mp hc)
    simp only [_module_type, Bool.false_eq_true, if_false]
    rw [if_neg this]

/-- Witness for C5 at concrete inputs. -/
theorem module_type_derivation_witness :
    _module_type "FooEditor" true = "Runtime" ∧
    _module_type "FooEditor" false = "Editor" ∧
    _module_type "FooDebug" false = "Developer" := by
  refine ⟨(module_type_derivation "FooEditor" true).1 rfl,
          (module_type_derivation "FooEditor" false).2.1 rfl ⟨"Foo", rfl⟩,
          (module_type_derivation "FooDebug" false).2.2 rfl ?_⟩
  rintro ⟨pre, hpre⟩
  have : pyEndswith "FooDebug" "Editor" = true :=
    (pyEndswith_iff "FooDebug" "Editor").mpr ⟨pre, hpre⟩
  simp [pyEndswith, List.isSuffixOf] at this

/-- C8: the merge is applied independently to the public and the private
    dependency lists: the merged private list does not depend on the public
    defaults or the module's public dependencies, and symmetrically. -/
theorem merge_public_private_independent
    (pubDefaults pubDefaults' privDefaults privDefaults' : List String)
    (pub pub' priv priv' : List String) :
    ((module_merged pubDefaults privDefaults pub priv).2 =
     (module_merged pubDefaults' privDefaults pub' priv).2) ∧
    ((module_merged pubDefaults privDefaults pub priv).1 =
     (module_merged pubDefaults privDefaults' pub priv').1) :=
  ⟨rfl, rfl⟩

/-- C10: the rendered header and implementation files depend only on the
    module name: for any two pairs of dependency lists, the writes other
    than the build-configuration file (the `Public/<name>.h` and
    `Private/<name>.cpp` writes) are identical, and all three target paths
    are identical. -/
theorem header_cpp_depend_only_on_name (root name : String)
    (pub priv pub' priv' : List String) :
    ((write_module_files root name pub priv).map Prod.fst =
     (write_module_files root name pub' priv').map Prod.fst) ∧
    ((write_module_files root name pub priv).drop 1 =
     (write_module_files root name pub' priv').drop 1) :=
  ⟨rfl, rfl⟩

theorem ensure_ok_of_depFieldOk (v : PyVal) (pre : String) (h : depFieldOk v = true) :
    ∃ ss, _ensure_list_strings v pre = Except.ok ss := by
  cases v with
  | pnone => exact ⟨[], rfl⟩
  | plist xs =>
    rw [depFieldOk, Option.isSome_iff_exists] at h
    obtain ⟨ss, hss⟩ := h
    exact ⟨ss, by simp [_ensure_list_strings, hss]⟩
  | pbool b => simp [depFieldOk] at h
  | pint n => simp [depFieldOk] at h
  | pstr s => simp [depFieldOk] at h
  | pdict d => simp [depFieldOk] at h

theorem ensure_error_of_not_depFieldOk (v : PyVal) (pre : String) (h : depFieldOk v = false) :
    _ensure_list_strings v pre =
      Except.error (pre ++ " must be a list[str]. Got: " ++ pyRepr v) := by
  cases v with
  | pnone => simp [depFieldOk] at h
  | plist xs =>
    cases hxs : asListOfStrings xs with
    | some ss => rw [depFieldOk, hxs] at h; cases h
    | none => simp [_ensure_list_strings, hxs]
  | pbool b => rfl
  | pint n => rfl
  | pstr s => rfl
  | pdict d => rfl

/-- Every entry either validates, or produces an error message that opens
    with `Module '<name>' `, naming the module being checked. -/
theorem validateEntry_cases (name : String) (e : PyVal) :
    (entryOk e = true ∧ validateEntry name e = Except.ok ()) ∨
    (entryOk e = false ∧ ∃ rest, validateEntry name e =
        Except.error (modMsg name ++ rest)) := by
  rcases e with _ | b | n | s | xs | d
  case pnone => exact Or.inr ⟨rfl, _, rfl⟩
  case pbool => exact Or.inr ⟨rfl, _, rfl⟩
  case pint => exact Or.inr ⟨rfl, _, rfl⟩
  case pstr => exact Or.inr ⟨rfl, _, rfl⟩
  case pdict => exact Or.inr ⟨rfl, _, rfl⟩
  case plist =>
  rcases xs with _ | ⟨a, xs⟩
  · exact Or.inr ⟨rfl, _, rfl⟩
  rcases xs with _ | ⟨b2, xs⟩
  · exact Or.inr ⟨by cases a <;> rfl,
      "entry must be [IsRuntime, Desc, PublicDeps, PrivateDeps]. Got: " ++
        pyRepr (PyVal.plist [a]), by cases a <;> rfl⟩
  rcases xs with _ | ⟨c2, xs⟩
  · exact Or.inr ⟨by cases a <;> (try rfl) <;> (cases b2 <;> rfl),
      "entry must be [IsRuntime, Desc, PublicDeps, PrivateDeps]. Got: " ++
        pyRepr (PyVal.plist [a, b2]), by cases a <;> (try rfl) <;> (cases b2 <;> rfl)⟩
  rcases xs with _ | ⟨d2, xs⟩
  · exact Or.inr ⟨by cases a <;> (try rfl) <;> (cases b2 <;> rfl),
      "entry must be [IsRuntime, Desc, PublicDeps, PrivateDeps]. Got: " ++
        pyRepr (PyVal.plist [a, b2, c2]), by cases a <;> (try rfl) <;> (cases b2 <;> rfl)⟩
  rcases xs with _ | ⟨e2, xs⟩
  case cons.cons.cons.cons.cons =>
    exact Or.inr ⟨by cases a <;> (try rfl) <;> (cases b2 <;> rfl),
      "entry must be [IsRuntime, Desc, PublicDeps, PrivateDeps]. Got: " ++
        pyRepr (PyVal.plist (a :: b2 :: c2 :: d2 :: e2 :: xs)),
      by cases a <;> (try rfl) <;> (cases b2 <;> rfl)⟩
  -- exactly four elements
  rcases a with _ | ab | an | as | al | ad
  case pnone => exact Or.inr ⟨rfl, _, rfl⟩
  case pint => exact Or.inr ⟨rfl, _, rfl⟩
  case pstr => exact Or.inr ⟨rfl, _, rfl⟩
  case plist => exact Or.inr ⟨rfl, _, rfl⟩
  case pdict => exact Or.inr ⟨rfl, _, rfl⟩
  case pbool =>
  rcases b2 with _ | bb | bn | bs | bl | bd
  case pnone => exact Or.inr ⟨rfl, _, rfl⟩
  case pbool => exact Or.inr ⟨rfl, _, rfl⟩
  case pint => exact Or.inr ⟨rfl, _, rfl⟩
  case plist => exact Or.inr ⟨rfl, _, rfl⟩
  case pdict => exact Or.inr ⟨rfl, _, rfl⟩
  case pstr =>
  by_cases hpub : depFieldOk c2 = true
  · by_cases hpriv : depFieldOk d2 = true
    · left
      constructor
      · simp [entryOk, hpub, hpriv]
      · obtain ⟨ss1, hss1⟩ := ensure_ok_of_depFieldOk c2 (modMsg name ++ "PublicDependencies") hpub
        obtain ⟨ss2, hss2⟩ := ensure_ok_of_depFieldOk d2 (modMsg name ++ "PrivateDependencies") hpriv
        simp [validateEntry, hss1, hss2]
    · right
      rw [Bool.not_eq_true] at hpriv
      obtain ⟨ss1, hss1⟩ := ensure_ok_of_depFieldOk c2 (modMsg name ++ "PublicDependencies") hpub
      have herr := ensure_error_of_not_depFieldOk d2 (modMsg name ++ "PrivateDependencies") hpriv
      refine ⟨by simp [entryOk, hpriv], "PrivateDependencies" ++ " must be a list[str]. Got: " ++ pyRepr d2, ?_⟩
      simp only [validateEntry, hss1, herr]
      rw [String.append_assoc, String.append_assoc, String.append_assoc]
  · right
    rw [Bool.not_eq_true] at hpub
    have herr := ensure_error_of_not_depFieldOk c2 (modMsg name ++ "PublicDependencies") hpub
    refine ⟨by simp [entryOk, hpub], "PublicDependencies" ++ " must be a list[str]. Got: " ++ pyRepr c2, ?_⟩
    simp only [validateEntry, herr]
    rw [String.append_assoc, String.append_assoc, String.append_assoc]

theorem validate_definitions_ok_of_all (defs : List (String × PyVal))
    (hall : ∀ p ∈ defs, entryOk p.2 = true) :
    validate_definitions defs = Except.ok () := by
  induction defs with
  | nil => rfl
  | cons p rest ih =>
    obtain ⟨name0, entry0⟩ := p
    rcases validateEntry_cases name0 entry0 with ⟨_, hveq⟩ | ⟨hbad0, _, _⟩
    · simp only [validate_definitions, hveq]
      exact ih (fun q hq => hall q (List.mem_cons_of_mem _ hq))
    · have := hall (name0, entry0) (List.mem_cons_self _ _)
      rw [this] at hbad0
      cases hbad0

/-- C9: a definitions table in which some module's dependency field is
    `None` and all the other checks pass raises no validation error —
    `_ensure_list_strings` treats `None` as the empty list. -/
theorem validate_accepts_none_deps (defs : List (String × PyVal))
    (hall : ∀ p ∈ defs, entryOk p.2 = true)
    (_hnone : ∃ p ∈ defs, ∃ b d other,
        p.2 = PyVal.plist [PyVal.pbool b, PyVal.pstr d, PyVal.pnone, other] ∨
        p.2 = PyVal.plist [PyVal.pbool b, PyVal.pstr d, other, PyVal.pnone]) :
    validate_definitions defs = Except.ok () :=
  validate_definitions_ok_of_all defs hall

/-- Witness for C9: a table whose only module has both dependency fields
    `None` passes validation. -/
theorem validate_accepts_none_deps_witness :
    validate_definitions
      [("A", PyVal.plist [PyVal.pbool true, PyVal.pstr "", PyVal.pnone, PyVal.pnone])] =
      Except.ok () :=
  validate_accepts_none_deps _ (by decide)
    ⟨_, List.mem_cons_self _ _, true, "", PyVal.pnone, Or.inl rfl⟩

/-- C4: a definitions table containing an invalid module entry (wrong
    shape, non-bool `IsRuntime`, non-string description, or a dependency
    field that is not `None` or a list of strings — in particular a single
    string) makes `validate_definitions` fail with an error naming an
    offending module, and `main` performs no file or manifest effect. -/
theorem validation_rejects_and_aborts (defs : List (String × PyVal))
    (hbad : ∃ p ∈ defs, entryOk p.2 = false) :
    ∃ name entry rest, (name, entry) ∈ defs ∧ entryOk entry = false ∧
      validate_definitions defs = Except.error (modMsg name ++ rest) ∧
      ∀ pubD privD upath sroot uplugin failsAt,
        mainRun defs pubD privD upath sroot uplugin failsAt =
          ([], Except.error (modMsg name ++ rest)) := by
  induction defs with
  | nil => simp at hbad
  | cons p rest ih =>
    obtain ⟨name0, entry0⟩ := p
    rcases validateEntry_cases name0 entry0 with ⟨hok, hveq⟩ | ⟨hbad0, r0, herr⟩
    · have hbad' : ∃ q ∈ rest, entryOk q.2 = false := by
        rcases hbad with ⟨q, hq, hqbad⟩
        rcases List.mem_cons.mp hq with rfl | hq'
        · rw [hok] at hqbad; cases hqbad
        · exact ⟨q, hq', hqbad⟩
      obtain ⟨nm, en, rst, hmem, hbadE, hval, _⟩ := ih hbad'
      have hvall : validate_definitions ((name0, entry0) :: rest) =
          Except.error (modMsg nm ++ rst) := by
        simp only [validate_definitions, hveq]
        exact hval
      refine ⟨nm, en, rst, List.mem_cons_of_mem _ hmem, hbadE, hvall, ?_⟩
      intro pubD privD upath sroot up fa
      simp only [mainRun, hvall]
    · have hvall : validate_definitions ((name0, entry0) :: rest) =
          Except.error (modMsg name0 ++ r0) := by
        simp only [validate_definitions, herr]
      refine ⟨name0, entry0, r0, List.mem_cons_self _ _, hbad0, hvall, ?_⟩
      intro pubD privD upath sroot up fa
      simp only [mainRun, hvall]

-- Dict laws used by the upsert claims.

def dkeys (d : Dict) : List String :=
  d.map Prod.fst

theorem dget_append_of_some {d1 : Dict} {key : String} {v : PyVal} (d2 : Dict)
    (h : dget d1 key = some v) : dget (d1 ++ d2) key = some v := by
  induction d1 with
  | nil => simp [dget] at h
  | cons p rest ih =>
    obtain ⟨k1, v1⟩ := p
    rw [dget] at h
    rw [List.cons_append, dget]
    by_cases hk : k1 = key
    · rwa [if_pos hk] at h ⊢
    · rw [if_neg hk] at h ⊢
      exact ih h

theorem dget_append_of_none {d1 : Dict} {key : String} (d2 : Dict)
    (h : dget d1 key = none) : dget (d1 ++ d2) key = dget d2 key := by
  induction d1 with
  | nil => rfl
  | cons p rest ih =>
    obtain ⟨k1, v1⟩ := p
    rw [dget] at h
    rw [List.cons_append, dget]
    by_cases hk : k1 = key
    · rw [if_pos hk] at h; cases h
    · rw [if_neg hk] at h ⊢
      exact ih h

theorem dget_map_set_self {d : Dict} {k : String} (v : PyVal)
    (h : (dget d k).isSome) :
    dget (d.map (fun p => if p.1 = k then (k, v) else p)) k = some v := by
  induction d with
  | nil => simp [dget] at h
  | cons p rest ih =>
    obtain ⟨k1, v1⟩ := p
    rw [List.map_cons]
    by_cases hk : k1 = k
    · subst hk
      have hf : (if (k1, v1).1 = k1 then (k1, v) else (k1, v1)) = (k1, v) := if_pos rfl
      rw [hf, dget, if_pos rfl]
    · rw [dget, if_neg hk] at h
      have hf : (if (k1, v1).1 = k then (k, v) else (k1, v1)) = (k1, v1) := if_neg hk
      rw [hf, dget, if_neg hk]
      exact ih h

theorem dget_map_set_other {d : Dict} {k key : String} (v : PyVal) (h : key ≠ k) :
    dget (d.map (fun p => if p.1 = k then (k, v) else p)) key = dget d key := by
  induction d with
  | nil => rfl
  | cons p rest ih =>
    obtain ⟨k1, v1⟩ := p
    rw [List.map_cons]
    by_cases hk : k1 = k
    · subst hk
      have hf : (if (k1, v1).1 = k1 then (k1, v) else (k1, v1)) = (k1, v) := if_pos rfl
      rw [hf, dget, dget, if_neg (fun hc : k1 = key => h hc.symm),
        if_neg (fun hc : k1 = key => h hc.symm)]
      exact ih
    · have hf : (if (k1, v1).1 = k then (k, v) else (k1, v1)) = (k1, v1) := if_neg hk
      rw [hf, dget, dget]
      by_cases hk1 : k1 = key
      · rw [if_pos hk1, if_pos hk1]
      · rw [if_neg hk1, if_neg hk1]
        exact ih

theorem dget_dset_self (d : Dict) (k : String) (v : PyVal) :
    dget (dset d k v) k = some v := by
  rw [dset]
  by_cases h : hasKey d k
  · rw [if_pos h]
    exact dget_map_set_self v h
  · rw [if_neg h]
    have hnone : dget d k = none := by
      cases hd : dget d k with
      | some w => rw [hasKey, hd] at h; simp at h
      | none => rfl
    rw [dget_append_of_none _ hnone, dget, if_pos rfl]

theorem dget_dset_other (d : Dict) (k key : String) (v : PyVal) (h : key ≠ k) :
    dget (dset d k v) key = dget d key := by
  rw [dset]
  by_cases hk : hasKey d k
  · rw [if_pos hk]
    exact dget_map_set_other v h
  · rw [if_neg hk]
    cases hd : dget d key with
    | some w => rw [dget_append_of_some _ hd]
    | none =>
      rw [dget_append_of_none _ hd, dget, if_neg (fun hc : k = key => h hc.symm), dget]

theorem dictUpdate_cons (d : Dict) (k : String) (v : PyVal) (rest : Dict) :
    dictUpdate d ((k, v) :: rest) = dictUpdate (dset d k v) rest :=
  rfl

theorem dget_eq_none_of_not_mem_dkeys {e : Dict} {key : String} (h : key ∉ dkeys e) :
    dget e key = none := by
  induction e with
  | nil => rfl
  | cons p rest ih =>
    obtain ⟨k1, v1⟩ := p
    rw [dkeys, List.map_cons, List.mem_cons] at h
    push_neg at h
    rw [dget, if_neg (fun hc : k1 = key => h.1 hc.symm)]
    exact ih h.2

theorem dget_dictUpdate_of_none {e : Dict} {key : String} (d : Dict)
    (h : dget e key = none) : dget (dictUpdate d e) key = dget d key := by
  induction e generalizing d with
  | nil => rfl
  | cons p rest ih =>
    obtain ⟨k1, v1⟩ := p
    rw [dget] at h
    by_cases hk : k1 = key
    · rw [if_pos hk] at h; cases h
    · rw [if_neg hk] at h
      rw [dictUpdate_cons, ih _ h, dget_dset_other _ _ _ _ (fun hc : key = k1 => hk hc.symm)]

theorem dget_dictUpdate_of_some {e : Dict} {key : String} {v : PyVal} (d : Dict)
    (hnd : (dkeys e).Nodup) (h : dget e key = some v) :
    dget (dictUpdate d e) key = some v := by
  induction e generalizing d with
  | nil => simp [dget] at h
  | cons p rest ih =>
    obtain ⟨k1, v1⟩ := p
    rw [dkeys, List.map_cons, List.nodup_cons] at hnd
    rw [dget] at h
    by_cases hk : k1 = key
    · subst hk
      rw [if_pos rfl] at h
      obtain rfl : v1 = v := Option.some.inj h
      rw [dictUpdate_cons]
      have hrest : dget rest k1 = none :=
        dget_eq_none_of_not_mem_dkeys hnd.1
      rw [dget_dictUpdate_of_none _ hrest, dget_dset_self]
    · rw [if_neg hk] at h
      rw [dictUpdate_cons]
      exact ih _ hnd.2 h

theorem dget_of_mem {m : Dict} {k : String} {v : PyVal}
    (hnd : (dkeys m).Nodup) (h : (k, v) ∈ m) : dget m k = some v := by
  induction m with
  | nil => cases h
  | cons p rest ih =>
    obtain ⟨k1, v1⟩ := p
    rw [dkeys, List.map_cons, List.nodup_cons] at hnd
    rcases List.mem_cons.mp h with heq | hmem
    · cases heq
      rw [dget, if_pos rfl]
    · rw [dget]
      by_cases hk : k1 = k
      · subst hk
        exact absurd (List.mem_map_of_mem Prod.fst hmem) hnd.1
      · rw [if_neg hk]
        exact ih hnd.2 hmem

-- Laws of `entriesOf` (the all-elements-are-dicts view of the array).

theorem entriesOf_length {xs : List PyVal} {es : List Entry}
    (h : entriesOf xs = some es) : es.length = xs.length := by
  induction xs generalizing es with
  | nil => cases h; rfl
  | cons x rest ih =>
    cases x with
    | pnone => cases h
    | pbool b => cases h
    | pint n => cases h
    | pstr s => cases h
    | plist ys => cases h
    | pdict d =>
      simp only [entriesOf] at h
      cases hr : entriesOf rest with
      | none => rw [hr] at h; cases h
      | some es' =>
        rw [hr] at h
        cases h
        simp [ih hr]

theorem entriesOf_set {xs : List PyVal} {es : List Entry} (i : Nat) (w : Entry)
    (h : entriesOf xs = some es) :
    entriesOf (xs.set i (PyVal.pdict w)) = some (es.set i w) := by
  induction xs generalizing es i with
  | nil => cases h; rfl
  | cons x rest ih =>
    cases x with
    | pnone => cases h
    | pbool b => cases h
    | pint n => cases h
    | pstr s => cases h
    | plist ys => cases h
    | pdict d =>
      simp only [entriesOf] at h
      cases hr : entriesOf rest with
      | none => rw [hr] at h; cases h
      | some es' =>
        rw [hr] at h
        cases h
        cases i with
        | zero => simp [entriesOf, hr]
        | succ j => simp [entriesOf, ih j hr]

theorem entriesOf_getD {xs : List PyVal} {es : List Entry} (i : Nat)
    (h : entriesOf xs = some es) (hi : i < xs.length) :
    xs.getD i PyVal.pnone = PyVal.pdict (es.getD i []) := by
  induction xs generalizing es i with
  | nil => cases hi
  | cons x rest ih =>
    cases x with
    | pnone => cases h
    | pbool b => cases h
    | pint n => cases h
    | pstr s => cases h
    | plist ys => cases h
    | pdict d =>
      simp only [entriesOf] at h
      cases hr : entriesOf rest with
      | none => rw [hr] at h; cases h
      | some es' =>
        rw [hr] at h
        cases h
        cases i with
        | zero => rfl
        | succ j =>
          simp only [List.getD_cons_succ]
          exact ih j hr (Nat.lt_of_succ_lt_succ hi)

theorem entriesOf_mem {xs : List PyVal} {es : List Entry} {d : Entry}
    (h : entriesOf xs = some es) (hd : d ∈ es) : PyVal.pdict d ∈ xs := by
  induction xs generalizing es with
  | nil => cases h; cases hd
  | cons x rest ih =>
    cases x with
    | pnone => cases h
    | pbool b => cases h
    | pint n => cases h
    | pstr s => cases h
    | plist ys => cases h
    | pdict d0 =>
      simp only [entriesOf] at h
      cases hr : entriesOf rest with
      | none => rw [hr] at h; cases h
      | some es' =>
        rw [hr] at h
        cases h
        rcases List.mem_cons.mp hd with rfl | hmem
        · exact List.mem_cons_self _ _
        · exact List.mem_cons_of_mem _ (ih hr hmem)

-- Characterization of the `by_name` index.

theorem alookup_map_set_self {acc : List (PyVal × Nat)} {k : PyVal} (i : Nat)
    (h : (alookup acc k).isSome) :
    alookup (acc.map (fun p => if p.1 = k then (k, i) else p)) k = some i := by
  induction acc with
  | nil => simp [alookup] at h
  | cons p rest ih =>
    obtain ⟨k1, v1⟩ := p
    rw [List.map_cons]
    by_cases hk : k1 = k
    · subst hk
      have hf : (if (k1, v1).1 = k1 then (k1, i) else (k1, v1)) = (k1, i) := if_pos rfl
      rw [hf, alookup, if_pos rfl]
    · rw [alookup, if_neg hk] at h
      have hf : (if (k1, v1).1 = k then (k, i) else (k1, v1)) = (k1, v1) := if_neg hk
      rw [hf, alookup, if_neg hk]
      exact ih h

theorem alookup_map_set_other {acc : List (PyVal × Nat)} {k key : PyVal} (i : Nat)
    (h : key ≠ k) :
    alookup (acc.map (fun p => if p.1 = k then (k, i) else p)) key = alookup acc key := by
  induction acc with
  | nil => rfl
  | cons p rest ih =>
    obtain ⟨k1, v1⟩ := p
    rw [List.map_cons]
    by_cases hk : k1 = k
    · subst hk
      have hf : (if (k1, v1).1 = k1 then (k1, i) else (k1, v1)) = (k1, i) := if_pos rfl
      rw [hf, alookup, alookup, if_neg (fun hc : k1 = key => h hc.symm),
        if_neg (fun hc : k1 = key => h hc.symm)]
      exact ih
    · have hf : (if (k1, v1).1 = k then (k, i) else (k1, v1)) = (k1, v1) := if_neg hk
      rw [hf, alookup, alookup]
      by_cases hk1 : k1 = key
      · rw [if_pos hk1, if_pos hk1]
      · rw [if_neg hk1, if_neg hk1]
        exact ih

theorem alookup_append_of_none {a1 : List (PyVal × Nat)} {key : PyVal} (a2 : List (PyVal × Nat))
    (h : alookup a1 key = none) : alookup (a1 ++ a2) key = alookup a2 key := by
  induction a1 with
  | nil => rfl
  | cons p rest ih =>
    obtain ⟨k1, v1⟩ := p
    rw [alookup] at h
    rw [List.cons_append, alookup]
    by_cases hk : k1 = key
    · rw [if_pos hk] at h; cases h
    · rw [if_neg hk] at h ⊢
      exact ih h

theorem alookup_append_of_some {a1 : List (PyVal × Nat)} {key : PyVal} {i : Nat}
    (a2 : List (PyVal × Nat)) (h : alookup a1 key = some i) :
    alookup (a1 ++ a2) key = some i := by
  induction a1 with
  | nil => simp [alookup] at h
  | cons p rest ih =>
    obtain ⟨k1, v1⟩ := p
    rw [alookup] at h
    rw [List.cons_append, alookup]
    by_cases hk : k1 = key
    · rwa [if_pos hk] at h ⊢
    · rw [if_neg hk] at h ⊢
      exact ih h

theorem alookup_aset (acc : List (PyVal × Nat)) (k : PyVal) (i : Nat) (key : PyVal) :
    alookup (aset acc k i) key = if key = k then some i else alookup acc key := by
  rw [aset]
  by_cases h : (alookup acc k).isSome
  · rw [if_pos h]
    by_cases hk : key = k
    · subst hk
      rw [if_pos rfl]
      exact alookup_map_set_self i h
    · rw [if_neg hk]
      exact alookup_map_set_other i hk
  · rw [if_neg h]
    have hnone : alookup acc k = none := by
      cases ha : alookup acc k with
      | some w => rw [ha] at h; simp at h
      | none => rfl
    by_cases hk : key = k
    · subst hk
      rw [if_pos rfl, alookup_append_of_none _ hnone, alookup, if_pos rfl]
    · rw [if_neg hk]
      cases ha : alookup acc key with
      | some j => rw [alookup_append_of_some _ ha]
      | none =>
        rw [alookup_append_of_none _ ha, alookup, if_neg (fun hc : k = key => hk hc.symm), alookup]

/-- Shifting the in-tail case of the `by_name` characterization across a
    cons cell. -/
theorem by_name_tail_shift {rest : List PyVal} {m nm : PyVal} {i j : Nat}
    (h : j + 1 ≤ i ∧ i - (j + 1) < rest.length ∧
      ∃ d, rest.getD (i - (j + 1)) PyVal.pnone = PyVal.pdict d ∧ dget d "Name" = some nm) :
    j ≤ i ∧ i - j < (m :: rest).length ∧
      ∃ d, (m :: rest).getD (i - j) PyVal.pnone = PyVal.pdict d ∧ dget d "Name" = some nm := by
  obtain ⟨hj, hlen, d, hget, hname⟩ := h
  refine ⟨Nat.le_of_succ_le hj, by simp only [List.length_cons]; omega, d, ?_, hname⟩
  have hij : i - j = (i - (j + 1)) + 1 := by omega
  rw [hij, List.getD_cons_succ]
  exact hget

/-- What a successful `by_name` lookup means: the index points somewhere in
    the array, at a dict whose `"Name"` value is the looked-up name. -/
theorem by_name_go_spec (rest : List PyVal) :
    ∀ (j : Nat) (acc : List (PyVal × Nat)) (nm : PyVal) (i : Nat),
    alookup (by_name_go j rest acc) nm = some i →
    alookup acc nm = some i ∨
      (j ≤ i ∧ i - j < rest.length ∧
        ∃ d, rest.getD (i - j) PyVal.pnone = PyVal.pdict d ∧ dget d "Name" = some nm) := by
  induction rest with
  | nil => intro j acc nm i h; exact Or.inl h
  | cons m rest ih =>
    intro j acc nm i h
    cases m with
    | pdict d0 =>
      cases hname0 : dget d0 "Name" with
      | some nm0 =>
        have hstep : by_name_go j (PyVal.pdict d0 :: rest) acc =
            by_name_go (j + 1) rest (aset acc nm0 j) := by
          rw [by_name_go, hname0]
        rw [hstep] at h
        rcases ih (j + 1) _ nm i h with hacc | htail
        · rw [alookup_aset] at hacc
          by_cases hnm : nm = nm0
          · rw [if_pos hnm] at hacc
            have hji : j = i := Option.some.inj hacc
            subst hji
            right
            refine ⟨Nat.le_refl _, by simp, d0, ?_, ?_⟩
            · rw [Nat.sub_self]
              rfl
            · rw [hname0, hnm]
          · rw [if_neg hnm] at hacc
            exact Or.inl hacc
        · exact Or.inr (by_name_tail_shift htail)
      | none =>
        have hstep : by_name_go j (PyVal.pdict d0 :: rest) acc =
            by_name_go (j + 1) rest acc := by
          rw [by_name_go, hname0]
        rw [hstep] at h
        rcases ih (j + 1) _ nm i h with hacc | htail
        · exact Or.inl hacc
        · exact Or.inr (by_name_tail_shift htail)
    | pnone =>
      rcases ih (j + 1) _ nm i h with hacc | htail
      · exact Or.inl hacc
      · exact Or.inr (by_name_tail_shift htail)
    | pbool b =>
      rcases ih (j + 1) _ nm i h with hacc | htail
      · exact Or.inl hacc
      · exact Or.inr (by_name_tail_shift htail)
    | pint n =>
      rcases ih (j + 1) _ nm i h with hacc | htail
      · exact Or.inl hacc
      · exact Or.inr (by_name_tail_shift htail)
    | pstr s =>
      rcases ih (j + 1) _ nm i h with hacc | htail
      · exact Or.inl hacc
      · exact Or.inr (by_name_tail_shift htail)
    | plist xs =>
      rcases ih (j + 1) _ nm i h with hacc | htail
      · exact Or.inl hacc
      · exact Or.inr (by_name_tail_shift htail)

theorem by_name_build_spec {existing : List PyVal} {nm : PyVal} {i : Nat}
    (h : alookup (by_name_build existing) nm = some i) :
    i < existing.length ∧
      ∃ d, existing.getD i PyVal.pnone = PyVal.pdict d ∧ dget d "Name" = some nm := by
  rcases by_name_go_spec existing 0 [] nm i h with hacc | ⟨_, hlen, d, hget, hname⟩
  · cases hacc
  · rw [Nat.sub_zero] at hlen hget
    exact ⟨hlen, d, hget, hname⟩

/-- If some dict element of the array carries the name, the `by_name`
    lookup succeeds. -/
theorem by_name_go_exists (rest : List PyVal) :
    ∀ (j : Nat) (acc : List (PyVal × Nat)) (nm : PyVal),
    ((alookup acc nm).isSome ∨ ∃ d, PyVal.pdict d ∈ rest ∧ dget d "Name" = some nm) →
    (alookup (by_name_go j rest acc) nm).isSome := by
  induction rest with
  | nil =>
    intro j acc nm h
    rcases h with h | ⟨d, hd, _⟩
    · exact h
    · cases hd
  | cons m rest ih =>
    intro j acc nm h
    have hnext : ∀ acc', ((alookup acc' nm).isSome ∨
        ∃ d, PyVal.pdict d ∈ rest ∧ dget d "Name" = some nm) →
        (alookup (by_name_go (j + 1) rest acc') nm).isSome := fun acc' => ih (j + 1) acc' nm
    cases m with
    | pdict d0 =>
      cases hname0 : dget d0 "Name" with
      | some nm0 =>
        have hstep : by_name_go j (PyVal.pdict d0 :: rest) acc =
            by_name_go (j + 1) rest (aset acc nm0 j) := by
          rw [by_name_go, hname0]
        rw [hstep]
        rcases h with hacc | ⟨d, hd, hname⟩
        · apply hnext
          left
          rw [alookup_aset]
          by_cases hnm : nm = nm0
          · rw [if_pos hnm]; rfl
          · rwa [if_neg hnm]
        · rcases List.mem_cons.mp hd with heq | hmem
          · apply hnext
            left
            have hd0 : d = d0 := by cases heq; rfl
            subst hd0
            rw [hname] at hname0
            cases hname0
            rw [alookup_aset, if_pos rfl]
            rfl
          · exact hnext _ (Or.inr ⟨d, hmem, hname⟩)
      | none =>
        have hstep : by_name_go j (PyVal.pdict d0 :: rest) acc =
            by_name_go (j + 1) rest acc := by
          rw [by_name_go, hname0]
        rw [hstep]
        rcases h with hacc | ⟨d, hd, hname⟩
        · exact hnext _ (Or.inl hacc)
        · rcases List.mem_cons.mp hd with heq | hmem
          · have hd0 : d = d0 := by cases heq; rfl
            subst hd0
            rw [hname] at hname0
            cases hname0
          · exact hnext _ (Or.inr ⟨d, hmem, hname⟩)
    | pnone =>
      rcases h with hacc | ⟨d, hd, hname⟩
      · exact hnext _ (Or.inl hacc)
      · rcases List.mem_cons.mp hd with heq | hmem
        · cases heq
        · exact hnext _ (Or.inr ⟨d, hmem, hname⟩)
    | pbool b =>
      rcases h with hacc | ⟨d, hd, hname⟩
      · exact hnext _ (Or.inl hacc)
      · rcases List.mem_cons.mp hd with heq | hmem
        · cases heq
        · exact hnext _ (Or.inr ⟨d, hmem, hname⟩)
    | pint n =>
      rcases h with hacc | ⟨d, hd, hname⟩
      · exact hnext _ (Or.inl hacc)
      · rcases List.mem_cons.mp hd with heq | hmem
        · cases heq
        · exact hnext _ (Or.inr ⟨d, hmem, hname⟩)
    | pstr s =>
      rcases h with hacc | ⟨d, hd, hname⟩
      · exact hnext _ (Or.inl hacc)
      · rcases List.mem_cons.mp hd with heq | hmem
        · cases heq
        · exact hnext _ (Or.inr ⟨d, hmem, hname⟩)
    | plist xs =>
      rcases h with hacc | ⟨d, hd, hname⟩
      · exact hnext _ (Or.inl hacc)
      · rcases List.mem_cons.mp hd with heq | hmem
        · cases heq
        · exact hnext _ (Or.inr ⟨d, hmem, hname⟩)

theorem entriesOf_map_pdict (l : List Entry) : entriesOf (l.map PyVal.pdict) = some l := by
  induction l with
  | nil => rfl
  | cons d rest ih => simp [entriesOf, ih]

/-- Unfolding of `upsert_uplugin_modules` once the `Modules` value is known
    to be an array. -/
theorem upsert_unfold (uplugin : Dict) (existing : List PyVal) (mes : List Entry)
    (hmod : (dget uplugin "Modules").getD (PyVal.plist []) = PyVal.plist existing) :
    upsert_uplugin_modules uplugin mes =
      (match upsertLoop (by_name_build existing) existing mes with
       | Except.error e => Except.error e
       | Except.ok arr =>
         match entriesOf arr with
         | none => Except.error "AttributeError: get"
         | some entries =>
           if entries.all nameOk then
             Except.ok (dset uplugin "Modules"
               (PyVal.plist ((pySortByName entries).map PyVal.pdict)))
           else Except.error "TypeError: unorderable sort keys") := by
  unfold upsert_uplugin_modules
  rw [hmod]

theorem nameOk_of_name_str {e : Entry} {n : String}
    (h : dget e "Name" = some (PyVal.pstr n)) : nameOk e = true := by
  rw [nameOk, h]

/-- C2: upserting a new entry whose name matches an existing Modules entry
    merges it field-by-field into the matched entry: keys present in the
    new entry take its values, every other key of the matched entry keeps
    its prior value, and every top-level manifest field other than
    `Modules` is unchanged; the spec's concrete `Foo`/`bar` example is
    included as the last conjunct. -/
theorem upsert_field_merge_frame
    (uplugin : Dict) (existing : List PyVal) (es : List Entry)
    (m : Entry) (n : String) (i : Nat) (old : Entry)
    (hmod : (dget uplugin "Modules").getD (PyVal.plist []) = PyVal.plist existing)
    (hes : entriesOf existing = some es)
    (hok : es.all nameOk = true)
    (hname : dget m "Name" = some (PyVal.pstr n))
    (hnd : (dkeys m).Nodup)
    (hit : alookup (by_name_build existing) (PyVal.pstr n) = some i)
    (hold : existing.getD i PyVal.pnone = PyVal.pdict old) :
    ∃ D, upsert_uplugin_modules uplugin [m] = Except.ok D ∧
      (∀ key, key ≠ "Modules" → dget D key = dget uplugin key) ∧
      dictUpdate old m ∈ modulesEntriesOf D ∧
      (∀ k, dget m k = none → dget (dictUpdate old m) k = dget old k) ∧
      (∀ k v, (k, v) ∈ m → dget (dictUpdate old m) k = some v) ∧
      upsert_uplugin_modules
          [("Modules", PyVal.plist [PyVal.pdict [("Name", PyVal.pstr "X"), ("Foo", PyVal.pstr "bar")]])]
          [[("Name", PyVal.pstr "X"), ("Type", PyVal.pstr "Runtime"),
            ("LoadingPhase", PyVal.pstr "Default")]] =
        Except.ok [("Modules", PyVal.plist [PyVal.pdict
          [("Name", PyVal.pstr "X"), ("Foo", PyVal.pstr "bar"),
           ("Type", PyVal.pstr "Runtime"), ("LoadingPhase", PyVal.pstr "Default")]])] := by
  have hilen : i < existing.length := (by_name_build_spec hit).1
  have hloop : upsertLoop (by_name_build existing) existing [m] =
      Except.ok (existing.set i (PyVal.pdict (dictUpdate old m))) := by
    simp only [upsertLoop, hname, hit, hold, updateAt]
  have hW : dget (dictUpdate old m) "Name" = some (PyVal.pstr n) :=
    dget_dictUpdate_of_some old hnd hname
  have hents : entriesOf (existing.set i (PyVal.pdict (dictUpdate old m))) =
      some (es.set i (dictUpdate old m)) := entriesOf_set i _ hes
  have hallok : (es.set i (dictUpdate old m)).all nameOk = true := by
    rw [List.all_eq_true]
    intro e he
    rcases List.mem_or_eq_of_mem_set he with hmem | rfl
    · exact List.all_eq_true.mp hok e hmem
    · exact nameOk_of_name_str hW
  refine ⟨dset uplugin "Modules"
      (PyVal.plist ((pySortByName (es.set i (dictUpdate old m))).map PyVal.pdict)), ?_, ?_, ?_, ?_, ?_, rfl⟩
  · rw [upsert_unfold uplugin existing [m] hmod, hloop]
    simp only [hents, hallok, if_pos]
  · intro key hkey
    exact dget_dset_other _ _ _ _ hkey
  · simp only [modulesEntriesOf, dget_dset_self, entriesOf_map_pdict, Option.getD_some]
    rw [pySortByName, List.mem_insertionSort keyLE]
    have : es.length = existing.length := entriesOf_length hes
    exact List.mem_set es i (this ▸ hilen) _
  · intro k hk
    exact dget_dictUpdate_of_none old hk
  · intro k v hkv
    exact dget_dictUpdate_of_some old hnd (dget_of_mem hnd hkv)

/-- Witness for C2 on a concrete manifest with an extra top-level field:
    the `Version` field and the untouched `Foo` key survive the upsert. -/
theorem upsert_field_merge_frame_witness :
    ∃ D, upsert_uplugin_modules
        [("Version", PyVal.pint 1),
         ("Modules", PyVal.plist [PyVal.pdict [("Name", PyVal.pstr "X"), ("Foo", PyVal.pstr "bar")]])]
        [[("Name", PyVal.pstr "X"), ("Type", PyVal.pstr "Runtime"),
          ("LoadingPhase", PyVal.pstr "Default")]] = Except.ok D ∧
      (∀ key, key ≠ "Modules" →
        dget D key = dget [("Version", PyVal.pint 1),
          ("Modules", PyVal.plist [PyVal.pdict [("Name", PyVal.pstr "X"), ("Foo", PyVal.pstr "bar")]])] key) ∧
      dictUpdate [("Name", PyVal.pstr "X"), ("Foo", PyVal.pstr "bar")]
          [("Name", PyVal.pstr "X"), ("Type", PyVal.pstr "Runtime"),
           ("LoadingPhase", PyVal.pstr "Default")] ∈ modulesEntriesOf D ∧
      (∀ k, dget [("Name", PyVal.pstr "X"), ("Type", PyVal.pstr "Runtime"),
          ("LoadingPhase", PyVal.pstr "Default")] k = none →
        dget (dictUpdate [("Name", PyVal.pstr "X"), ("Foo", PyVal.pstr "bar")]
          [("Name", PyVal.pstr "X"), ("Type", PyVal.pstr "Runtime"),
           ("LoadingPhase", PyVal.pstr "Default")]) k =
        dget [("Name", PyVal.pstr "X"), ("Foo", PyVal.pstr "bar")] k) ∧
      (∀ k v, (k, v) ∈ [("Name", PyVal.pstr "X"), ("Type", PyVal.pstr "Runtime"),
          ("LoadingPhase", PyVal.pstr "Default")] →
        dget (dictUpdate [("Name", PyVal.pstr "X"), ("Foo", PyVal.pstr "bar")]
          [("Name", PyVal.pstr "X"), ("Type", PyVal.pstr "Runtime"),
           ("LoadingPhase", PyVal.pstr "Default")]) k = some v) ∧
      upsert_uplugin_modules
          [("Modules", PyVal.plist [PyVal.pdict [("Name", PyVal.pstr "X"), ("Foo", PyVal.pstr "bar")]])]
          [[("Name", PyVal.pstr "X"), ("Type", PyVal.pstr "Runtime"),
            ("LoadingPhase", PyVal.pstr "Default")]] =
        Except.ok [("Modules", PyVal.plist [PyVal.pdict
          [("Name", PyVal.pstr "X"), ("Foo", PyVal.pstr "bar"),
           ("Type", PyVal.pstr "Runtime"), ("LoadingPhase", PyVal.pstr "Default")]])] :=
  upsert_field_merge_frame _ _ _ _ "X" 0 _ rfl rfl (by decide) rfl (by decide) rfl rfl

/-- All pairs of `d` with key `k` carry the value `v`, and there is at
    least one.  This is the state `d[k] = v` leaves a dict in. -/
def UniformKey (d : Dict) (k : String) (v : PyVal) : Prop :=
  hasKey d k = true ∧ ∀ p ∈ d, p.1 = k → p.2 = v

theorem hasKey_dset_self (d : Dict) (k : String) (v : PyVal) :
    hasKey (dset d k v) k = true := by
  rw [hasKey, dget_dset_self]
  rfl

theorem dget_isSome_of_mem_dkeys {d : Dict} {k : String} (h : k ∈ dkeys d) :
    (dget d k).isSome := by
  induction d with
  | nil => cases h
  | cons p rest ih =>
    obtain ⟨k1, v1⟩ := p
    rw [dkeys, List.map_cons, List.mem_cons] at h
    rw [dget]
    by_cases hk : k1 = k
    · rw [if_pos hk]
      rfl
    · rw [if_neg hk]
      rcases h with rfl | h
      · exact absurd rfl hk
      · exact ih h

theorem uniform_dset_self (d : Dict) (k : String) (v : PyVal) :
    UniformKey (dset d k v) k v := by
  refine ⟨hasKey_dset_self d k v, ?_⟩
  intro p hp hk
  rw [dset] at hp
  by_cases h : hasKey d k
  · rw [if_pos h] at hp
    obtain ⟨q, _, hq⟩ := List.mem_map.mp hp
    by_cases hqk : q.1 = k
    · rw [if_pos hqk] at hq
      rw [← hq]
    · rw [if_neg hqk] at hq
      rw [← hq] at hk
      exact absurd hk hqk
  · rw [if_neg h] at hp
    rcases List.mem_append.mp hp with hmem | hmem
    · exfalso
      apply h
      rw [hasKey]
      apply dget_isSome_of_mem_dkeys
      rw [← hk]
      exact List.mem_map_of_mem Prod.fst hmem
    · have hpe : p = (k, v) := List.mem_singleton.mp hmem
      rw [hpe]

theorem uniform_dset_other {d : Dict} {k : String} {v : PyVal} (k' : String) (v' : PyVal)
    (hne : k' ≠ k) (h : UniformKey d k v) : UniformKey (dset d k' v') k v := by
  obtain ⟨hk, hval⟩ := h
  constructor
  · rw [hasKey, dget_dset_other _ _ _ _ (fun hc : k = k' => hne hc.symm)]
    exact hk
  · intro p hp hpk
    rw [dset] at hp
    by_cases hh : hasKey d k'
    · rw [if_pos hh] at hp
      obtain ⟨q, hq, hqe⟩ := List.mem_map.mp hp
      by_cases hqk : q.1 = k'
      · rw [if_pos hqk] at hqe
        rw [← hqe] at hpk
        exact absurd hpk hne
      · rw [if_neg hqk] at hqe
        rw [← hqe] at hpk ⊢
        exact hval q hq hpk
    · rw [if_neg hh] at hp
      rcases List.mem_append.mp hp with hmem | hmem
      · exact hval p hmem hpk
      · rcases List.mem_singleton.mp hmem with rfl
        exact absurd hpk hne

theorem map_set_id {d : Dict} {k : String} {v : PyVal}
    (hval : ∀ p ∈ d, p.1 = k → p.2 = v) :
    d.map (fun p => if p.1 = k then (k, v) else p) = d := by
  induction d with
  | nil => rfl
  | cons p rest ih =>
    obtain ⟨k1, v1⟩ := p
    rw [List.map_cons]
    by_cases hk : k1 = k
    · have hv1 : v1 = v := hval (k1, v1) (List.mem_cons_self _ _) hk
      have hf : (if (k1, v1).1 = k then (k, v) else (k1, v1)) = (k, v) := if_pos hk
      rw [hf, hk, hv1, ih (fun q hq hqk => hval q (List.mem_cons_of_mem _ hq) hqk)]
    · have hf : (if (k1, v1).1 = k then (k, v) else (k1, v1)) = (k1, v1) := if_neg hk
      rw [hf, ih (fun q hq hqk => hval q (List.mem_cons_of_mem _ hq) hqk)]

theorem dset_absorb {d : Dict} {k : String} {v : PyVal} (h : UniformKey d k v) :
    dset d k v = d := by
  obtain ⟨hk, hval⟩ := h
  rw [dset, if_pos hk]
  exact map_set_id hval

theorem dictUpdate_absorb {d : Dict} {e : Dict}
    (h : ∀ p ∈ e, UniformKey d p.1 p.2) : dictUpdate d e = d := by
  induction e with
  | nil => rfl
  | cons p rest ih =>
    obtain ⟨k, v⟩ := p
    rw [dictUpdate_cons, dset_absorb (h (k, v) (List.mem_cons_self _ _))]
    exact ih (fun q hq => h q (List.mem_cons_of_mem _ hq))

theorem uniform_dictUpdate_other {d : Dict} {k : String} {v : PyVal} (e : Dict)
    (hne : ∀ p ∈ e, p.1 ≠ k) (h : UniformKey d k v) :
    UniformKey (dictUpdate d e) k v := by
  induction e generalizing d with
  | nil => exact h
  | cons p rest ih =>
    obtain ⟨k', v'⟩ := p
    rw [dictUpdate_cons]
    exact ih (fun q hq => hne q (List.mem_cons_of_mem _ hq))
      (uniform_dset_other k' v' (hne (k', v') (List.mem_cons_self _ _)) h)

/-- After `d.update(e)` with unique keys in `e`, every pair of `e` is
    uniformly present. -/
theorem uniform_after_update {e : Dict} {k : String} {v : PyVal} (d : Dict)
    (hnd : (dkeys e).Nodup) (h : (k, v) ∈ e) :
    UniformKey (dictUpdate d e) k v := by
  induction e generalizing d with
  | nil => cases h
  | cons p rest ih =>
    obtain ⟨k0, v0⟩ := p
    rw [dkeys, List.map_cons, List.nodup_cons] at hnd
    rcases List.mem_cons.mp h with heq | hmem
    · cases heq
      rw [dictUpdate_cons]
      apply uniform_dictUpdate_other rest
      · intro q hq hqk
        have hmm : q.1 ∈ List.map Prod.fst rest := List.mem_map_of_mem Prod.fst hq
        rw [hqk] at hmm
        exact hnd.1 hmm
      · exact uniform_dset_self d k v
    · rw [dictUpdate_cons]
      exact ih (dset d k0 v0) hnd.2 hmem

theorem uniform_of_mem {e : Dict} {k : String} {v : PyVal}
    (hnd : (dkeys e).Nodup) (h : (k, v) ∈ e) : UniformKey e k v := by
  constructor
  · rw [hasKey, dget_of_mem hnd h]
    rfl
  · intro p hp hpk
    have h1 : dget e k = some p.2 := by
      rw [← hpk]
      obtain ⟨p1, p2⟩ := p
      exact dget_of_mem hnd hp
    have h2 : dget e k = some v := dget_of_mem hnd h
    rw [h2] at h1
    exact (Option.some.inj h1).symm

theorem set_getD_self (l : List PyVal) (i : Nat) (d : PyVal) (h : i < l.length) :
    l.set i (l.getD i d) = l := by
  induction l generalizing i with
  | nil => cases h
  | cons x rest ih =>
    cases i with
    | zero => rfl
    | succ j =>
      simp only [List.getD_cons_succ, List.set_cons_succ]
      rw [ih j (Nat.lt_of_succ_lt_succ h)]

/-- The string name of an entry, when its `"Name"` value is a string. -/
def entryNameStr (e : Entry) : Option String :=
  match dget e "Name" with
  | some (PyVal.pstr s) => some s
  | _ => none

theorem filterMap_nodup_unique {α : Type} {l : List α} {g : α → Option String}
    {a b : α} {n : String}
    (hnd : (l.filterMap g).Nodup) (ha : a ∈ l) (hb : b ∈ l)
    (hga : g a = some n) (hgb : g b = some n) : a = b := by
  induction l with
  | nil => cases ha
  | cons x rest ih =>
    rw [List.filterMap_cons] at hnd
    cases hgx : g x with
    | none =>
      rw [hgx] at hnd
      rcases List.mem_cons.mp ha with rfl | ha'
      · rw [hga] at hgx; cases hgx
      rcases List.mem_cons.mp hb with rfl | hb'
      · rw [hgb] at hgx; cases hgx
      exact ih hnd ha' hb'
    | some m =>
      rw [hgx] at hnd
      rw [List.nodup_cons] at hnd
      rcases List.mem_cons.mp ha with rfl | ha'
      · rcases List.mem_cons.mp hb with rfl | hb'
        · rfl
        · exfalso
          rw [hga] at hgx
          obtain rfl : m = n := (Option.some.inj hgx).symm
          exact hnd.1 (List.mem_filterMap.mpr ⟨b, hb', hgb⟩)
      · rcases List.mem_cons.mp hb with rfl | hb'
        · exfalso
          rw [hgb] at hgx
          obtain rfl : m = n := (Option.some.inj hgx).symm
          exact hnd.1 (List.mem_filterMap.mpr ⟨a, ha', hga⟩)
        · exact ih hnd.2 ha' hb'

theorem countP_name_eq_zero {α : Type} {l : List α} {g : α → Option String} {n : String}
    (hmem : n ∉ l.filterMap g) :
    l.countP (fun e => decide (g e = some n)) = 0 := by
  induction l with
  | nil => rfl
  | cons x rest ih =>
    rw [List.filterMap_cons] at hmem
    rw [List.countP_cons]
    cases hgx : g x with
    | none =>
      rw [hgx] at hmem
      rw [ih hmem]
      simp [hgx]
    | some m =>
      rw [hgx] at hmem
      rw [List.mem_cons] at hmem
      push_neg at hmem
      have hmn : m ≠ n := fun hc => hmem.1 hc.symm
      rw [ih hmem.2]
      simp [hgx, hmn]

theorem countP_name_eq_one {α : Type} {l : List α} {g : α → Option String} {n : String}
    (hnd : (l.filterMap g).Nodup) (hmem : n ∈ l.filterMap g) :
    l.countP (fun e => decide (g e = some n)) = 1 := by
  induction l with
  | nil => cases hmem
  | cons x rest ih =>
    rw [List.filterMap_cons] at hnd hmem
    rw [List.countP_cons]
    cases hgx : g x with
    | none =>
      rw [hgx] at hnd hmem
      rw [ih hnd hmem]
      simp [hgx]
    | some m =>
      rw [hgx] at hnd hmem
      rw [List.nodup_cons] at hnd
      rcases List.mem_cons.mp hmem with rfl | hmem'
      · rw [countP_name_eq_zero hnd.1]
        simp [hgx]
      · have hmn : m ≠ n := by
          intro hc
          subst hc
          exact hnd.1 hmem'
        rw [ih hnd.2 hmem']
        simp [hgx, hmn]

-- The upsert loop, characterized: merges applied positionwise, genuinely
-- new entries appended in order.

/-- The `m["Name"]` value used as the `by_name` key (batch entries always
    carry one on the success path). -/
def nameKeyV (e : Entry) : PyVal :=
  (dget e "Name").getD PyVal.pnone

/-- The batch entries the upsert loop merges into position `i`. -/
def newsAt (byName : List (PyVal × Nat)) (news : List Entry) (i : Nat) : List Entry :=
  news.filter (fun e => alookup byName (nameKeyV e) = some i)

/-- Positions `j, j+1, ...` of the array after all merges are applied. -/
def updAllGo (byName : List (PyVal × Nat)) (news : List Entry) : Nat → List PyVal → List PyVal
  | _, [] => []
  | i, v :: rest => (newsAt byName news i).foldl updateAt v :: updAllGo byName news (i + 1) rest

theorem newsAt_cons (byName : List (PyVal × Nat)) (e : Entry) (rest : List Entry) (i : Nat) :
    newsAt byName (e :: rest) i =
      if alookup byName (nameKeyV e) = some i then e :: newsAt byName rest i
      else newsAt byName rest i := by
  by_cases h : alookup byName (nameKeyV e) = some i
  · simp [newsAt, List.filter_cons, h]
  · simp [newsAt, List.filter_cons, h]

theorem updAllGo_nil_news (byName : List (PyVal × Nat)) :
    ∀ (arr : List PyVal) (j : Nat), updAllGo byName [] j arr = arr := by
  intro arr
  induction arr with
  | nil => intro j; rfl
  | cons v tail ih =>
    intro j
    rw [updAllGo, newsAt, List.filter_nil, List.foldl_nil, ih (j + 1)]

theorem updAllGo_cons_news_out (byName : List (PyVal × Nat)) (e : Entry) (rest : List Entry) :
    ∀ (arr : List PyVal) (j : Nat),
    (∀ k, j ≤ k → k < j + arr.length → alookup byName (nameKeyV e) ≠ some k) →
    updAllGo byName (e :: rest) j arr = updAllGo byName rest j arr := by
  intro arr
  induction arr with
  | nil => intro j _; rfl
  | cons v tail ih =>
    intro j h
    rw [updAllGo, updAllGo, newsAt_cons,
      if_neg (h j (Nat.le_refl j) (by simp only [List.length_cons]; omega)),
      ih (j + 1) (fun k hk1 hk2 =>
        h k (Nat.le_of_succ_le hk1) (by simp only [List.length_cons] at hk2 ⊢; omega))]

theorem updAllGo_cons_hit (byName : List (PyVal × Nat)) (e : Entry) (rest : List Entry)
    {i : Nat} (hlook : alookup byName (nameKeyV e) = some i) :
    ∀ (arr : List PyVal) (j : Nat), j ≤ i → i - j < arr.length →
    updAllGo byName (e :: rest) j arr =
      updAllGo byName rest j (arr.set (i - j) (updateAt (arr.getD (i - j) PyVal.pnone) e)) := by
  intro arr
  induction arr with
  | nil => intro j _ hlen; exact absurd hlen (Nat.not_lt_zero _)
  | cons v tail ih =>
    intro j hj hlen
    by_cases hij : i = j
    · subst hij
      rw [Nat.sub_self]
      rw [updAllGo, newsAt_cons, if_pos hlook, List.foldl_cons]
      have htail : updAllGo byName (e :: rest) (i + 1) tail = updAllGo byName rest (i + 1) tail :=
        updAllGo_cons_news_out byName e rest tail (i + 1)
          (fun k hk1 _ hc => by
            rw [hlook] at hc
            have := Option.some.inj hc
            omega)
      rw [htail]
      rfl
    · have hij' : j < i := Nat.lt_of_le_of_ne hj (fun hc => hij hc.symm)
      have hcond : ¬(alookup byName (nameKeyV e) = some j) := by
        intro hc
        rw [hlook] at hc
        exact hij (Option.some.inj hc)
      have hsub : i - j = (i - (j + 1)) + 1 := by omega
      rw [updAllGo, newsAt_cons, if_neg hcond, hsub, List.set_cons_succ, List.getD_cons_succ,
        updAllGo, ih (j + 1) hij' (by simp only [List.length_cons] at hlen; omega)]

theorem updAllGo_append (byName : List (PyVal × Nat)) (news : List Entry) :
    ∀ (arr : List PyVal) (x : PyVal) (j : Nat),
    updAllGo byName news j (arr ++ [x]) =
      updAllGo byName news j arr ++
        [(newsAt byName news (j + arr.length)).foldl updateAt x] := by
  intro arr
  induction arr with
  | nil =>
    intro x j
    rw [List.nil_append, updAllGo, updAllGo]
    rfl
  | cons v tail ih =>
    intro x j
    rw [List.cons_append, updAllGo, updAllGo, ih x (j + 1), List.cons_append]
    have harith : j + 1 + tail.length = j + (v :: tail).length := by
      simp only [List.length_cons]
      omega
    rw [harith]

theorem updAllGo_length (byName : List (PyVal × Nat)) (news : List Entry) :
    ∀ (arr : List PyVal) (j : Nat), (updAllGo byName news j arr).length = arr.length := by
  intro arr
  induction arr with
  | nil => intro j; rfl
  | cons v tail ih =>
    intro j
    rw [updAllGo, List.length_cons, List.length_cons, ih (j + 1)]

theorem updAllGo_getD (byName : List (PyVal × Nat)) (news : List Entry) :
    ∀ (arr : List PyVal) (j k : Nat), k < arr.length →
    (updAllGo byName news j arr).getD k PyVal.pnone =
      (newsAt byName news (j + k)).foldl updateAt (arr.getD k PyVal.pnone) := by
  intro arr
  induction arr with
  | nil => intro j k hk; exact absurd hk (Nat.not_lt_zero _)
  | cons v tail ih =>
    intro j k hk
    cases k with
    | zero => rw [updAllGo]; rfl
    | succ k' =>
      rw [updAllGo, List.getD_cons_succ, List.getD_cons_succ,
        ih (j + 1) k' (Nat.lt_of_succ_lt_succ hk)]
      have harith : j + 1 + k' = j + (k' + 1) := by omega
      rw [harith]

/-- Characterization of the upsert loop: provided every batch entry has a
    `"Name"` and `by_name` only indexes into the array, the loop merges
    each batch entry into its indexed position and appends the entries
    whose name is not indexed, in batch order. -/
theorem upsertLoop_char (byName : List (PyVal × Nat)) :
    ∀ (news : List Entry) (arr : List PyVal),
    (∀ e ∈ news, (dget e "Name").isSome) →
    (∀ nm i, alookup byName nm = some i → i < arr.length) →
    upsertLoop byName arr news =
      Except.ok (updAllGo byName news 0 arr ++
        (news.filter (fun e => alookup byName (nameKeyV e) = none)).map PyVal.pdict) := by
  intro news
  induction news with
  | nil =>
    intro arr _ _
    rw [upsertLoop, updAllGo_nil_news, List.filter_nil, List.map_nil, List.append_nil]
  | cons e rest ih =>
    intro arr hnames hbound
    obtain ⟨nmv, hnm⟩ := Option.isSome_iff_exists.mp (hnames e (List.mem_cons_self _ _))
    have hkey : nameKeyV e = nmv := by rw [nameKeyV, hnm]; rfl
    have hnamesr : ∀ e' ∈ rest, (dget e' "Name").isSome :=
      fun e' he' => hnames e' (List.mem_cons_of_mem _ he')
    cases hlook : alookup byName nmv with
    | some i =>
      have hi : i < arr.length := hbound nmv i hlook
      have hloop : upsertLoop byName arr (e :: rest) =
          upsertLoop byName (arr.set i (updateAt (arr.getD i PyVal.pnone) e)) rest := by
        simp only [upsertLoop, hnm, hlook]
      rw [hloop, ih _ hnamesr (fun nm' i' h' => by rw [List.length_set]; exact hbound nm' i' h')]
      have hfil : (e :: rest).filter (fun e' => alookup byName (nameKeyV e') = none) =
          rest.filter (fun e' => alookup byName (nameKeyV e') = none) := by
        rw [List.filter_cons]
        have : ¬(alookup byName (nameKeyV e) = none) := by
          rw [hkey, hlook]
          exact Option.noConfusion
        simp [this]
      rw [hfil]
      have hupd : updAllGo byName (e :: rest) 0 arr =
          updAllGo byName rest 0 (arr.set i (updateAt (arr.getD i PyVal.pnone) e)) := by
        have := updAllGo_cons_hit byName e rest (hkey ▸ hlook) arr 0 (Nat.zero_le i)
          (by rw [Nat.sub_zero]; exact hi)
        rw [Nat.sub_zero] at this
        exact this
      rw [hupd]
    | none =>
      have hloop : upsertLoop byName arr (e :: rest) =
          upsertLoop byName (arr ++ [PyVal.pdict e]) rest := by
        simp only [upsertLoop, hnm, hlook]
      rw [hloop, ih _ hnamesr (fun nm' i' h' => by
        rw [List.length_append, List.length_singleton]
        exact Nat.lt_succ_of_lt (hbound nm' i' h'))]
      have hfil : (e :: rest).filter (fun e' => alookup byName (nameKeyV e') = none) =
          e :: rest.filter (fun e' => alookup byName (nameKeyV e') = none) := by
        rw [List.filter_cons]
        simp [hkey, hlook]
      rw [hfil]
      have hempty : newsAt byName rest (0 + arr.length) = [] := by
        rw [Nat.zero_add]
        apply List.filter_eq_nil.mpr
        intro e' _
        simp only [decide_eq_true_eq]
        intro hc
        exact absurd (hbound _ _ hc) (Nat.lt_irrefl _)
      rw [updAllGo_append, hempty, List.foldl_nil,
        updAllGo_cons_news_out byName e rest arr 0 (fun k _ _ hc => by
          rw [hkey, hlook] at hc
          cases hc),
        List.map_cons, List.append_assoc, List.singleton_append]

-- Glue facts used to assemble the upsert characterization into the
-- specification-level description.

theorem entriesOf_append {xs ys : List PyVal} {as bs : List Entry}
    (hx : entriesOf xs = some as) (hy : entriesOf ys = some bs) :
    entriesOf (xs ++ ys) = some (as ++ bs) := by
  induction xs generalizing as with
  | nil => cases hx; exact hy
  | cons x rest ih =>
    cases x with
    | pnone => cases hx
    | pbool b => cases hx
    | pint n => cases hx
    | pstr s => cases hx
    | plist ys2 => cases hx
    | pdict d =>
      simp only [entriesOf] at hx
      cases hr : entriesOf rest with
      | none => rw [hr] at hx; cases hx
      | some as' =>
        rw [hr] at hx
        cases hx
        rw [List.cons_append]
        simp only [entriesOf, ih hr]
        rfl

theorem entriesOf_mem_rev {xs : List PyVal} {es : List Entry} {d : Entry}
    (h : entriesOf xs = some es) (hd : PyVal.pdict d ∈ xs) : d ∈ es := by
  induction xs generalizing es with
  | nil => cases hd
  | cons x rest ih =>
    cases x with
    | pnone => cases h
    | pbool b => cases h
    | pint n => cases h
    | pstr s => cases h
    | plist ys => cases h
    | pdict d0 =>
      simp only [entriesOf] at h
      cases hr : entriesOf rest with
      | none => rw [hr] at h; cases h
      | some es' =>
        rw [hr] at h
        cases h
        rcases List.mem_cons.mp hd with heq | hmem
        · obtain rfl : d = d0 := by cases heq; rfl
          exact List.mem_cons_self _ _
        · exact List.mem_cons_of_mem _ (ih hr hmem)

theorem foldl_updateAt_pdict (ns : List Entry) (w : Entry) :
    ns.foldl updateAt (PyVal.pdict w) =
      PyVal.pdict (ns.foldl (fun acc e => dictUpdate acc e) w) := by
  induction ns generalizing w with
  | nil => rfl
  | cons e rest ih =>
    rw [List.foldl_cons, List.foldl_cons]
    exact ih (dictUpdate w e)

/-- The entry-level view of `updAllGo`. -/
def entUpdAllGo (byName : List (PyVal × Nat)) (news : List Entry) : Nat → List Entry → List Entry
  | _, [] => []
  | i, w :: rest =>
    (newsAt byName news i).foldl (fun acc e => dictUpdate acc e) w ::
      entUpdAllGo byName news (i + 1) rest

theorem entriesOf_updAllGo (byName : List (PyVal × Nat)) (news : List Entry) :
    ∀ (arr : List PyVal) (es : List Entry) (j : Nat), entriesOf arr = some es →
    entriesOf (updAllGo byName news j arr) = some (entUpdAllGo byName news j es) := by
  intro arr
  induction arr with
  | nil => intro es j h; cases h; rfl
  | cons x rest ih =>
    intro es j h
    cases x with
    | pnone => cases h
    | pbool b => cases h
    | pint n => cases h
    | pstr s => cases h
    | plist ys => cases h
    | pdict d =>
      simp only [entriesOf] at h
      cases hr : entriesOf rest with
      | none => rw [hr] at h; cases h
      | some es' =>
        rw [hr] at h
        cases h
        rw [updAllGo, entUpdAllGo, foldl_updateAt_pdict]
        simp only [entriesOf, ih es' (j + 1) hr]
        rfl

theorem entUpdAllGo_length (byName : List (PyVal × Nat)) (news : List Entry) :
    ∀ (es : List Entry) (j : Nat), (entUpdAllGo byName news j es).length = es.length := by
  intro es
  induction es with
  | nil => intro j; rfl
  | cons w rest ih =>
    intro j
    rw [entUpdAllGo, List.length_cons, List.length_cons, ih (j + 1)]

theorem entUpdAllGo_getD (byName : List (PyVal × Nat)) (news : List Entry) :
    ∀ (es : List Entry) (j k : Nat), k < es.length →
    (entUpdAllGo byName news j es).getD k [] =
      (newsAt byName news (j + k)).foldl (fun acc e => dictUpdate acc e) (es.getD k []) := by
  intro es
  induction es with
  | nil => intro j k hk; exact absurd hk (Nat.not_lt_zero _)
  | cons w rest ih =>
    intro j k hk
    cases k with
    | zero => rw [entUpdAllGo]; rfl
    | succ k' =>
      rw [entUpdAllGo, List.getD_cons_succ, List.getD_cons_succ,
        ih (j + 1) k' (Nat.lt_of_succ_lt_succ hk)]
      have harith : j + 1 + k' = j + (k' + 1) := by omega
      rw [harith]

theorem mem_filterMap_getD {l : List Entry} {g : Entry → Option String} {n : String}
    {k : Nat} (hk : k < l.length) (h : g (l.getD k []) = some n) :
    n ∈ l.filterMap g := by
  induction l generalizing k with
  | nil => cases hk
  | cons x rest ih =>
    rw [List.filterMap_cons]
    cases k with
    | zero =>
      rw [List.getD_cons_zero] at h
      rw [h]
      exact List.mem_cons_self _ _
    | succ k' =>
      rw [List.getD_cons_succ] at h
      have hmem := ih (Nat.lt_of_succ_lt_succ hk) h
      cases g x with
      | none => exact hmem
      | some m => exact List.mem_cons_of_mem _ hmem

theorem filterMap_nodup_getD_unique {l : List Entry} {g : Entry → Option String} {n : String}
    (hnd : (l.filterMap g).Nodup) :
    ∀ i k, i < l.length → k < l.length →
    g (l.getD i []) = some n → g (l.getD k []) = some n → i = k := by
  induction l with
  | nil => intro i k hi _ _ _; exact absurd hi (Nat.not_lt_zero _)
  | cons x rest ih =>
    intro i k hi hk hgi hgk
    rw [List.filterMap_cons] at hnd
    cases i with
    | zero =>
      cases k with
      | zero => rfl
      | succ k' =>
        exfalso
        rw [List.getD_cons_zero] at hgi
        rw [List.getD_cons_succ] at hgk
        rw [hgi] at hnd
        rw [List.nodup_cons] at hnd
        exact hnd.1 (mem_filterMap_getD (Nat.lt_of_succ_lt_succ hk) hgk)
    | succ i' =>
      cases k with
      | zero =>
        exfalso
        rw [List.getD_cons_zero] at hgk
        rw [List.getD_cons_succ] at hgi
        rw [hgk] at hnd
        rw [List.nodup_cons] at hnd
        exact hnd.1 (mem_filterMap_getD (Nat.lt_of_succ_lt_succ hi) hgi)
      | succ k' =>
        have hnd' : (rest.filterMap g).Nodup := by
          cases hgx : g x with
          | none => rw [hgx] at hnd; exact hnd
          | some m =>
            rw [hgx] at hnd
            exact (List.nodup_cons.mp hnd).2
        rw [List.getD_cons_succ] at hgi hgk
        rw [ih hnd' i' k' (Nat.lt_of_succ_lt_succ hi) (Nat.lt_of_succ_lt_succ hk) hgi hgk]

theorem filter_eq_find_toList {α : Type} {l : List α} {p : α → Bool}
    (h : l.countP p ≤ 1) : l.filter p = (l.find? p).toList := by
  induction l with
  | nil => rfl
  | cons x rest ih =>
    rw [List.countP_cons] at h
    rw [List.filter_cons]
    by_cases hx : p x
    · rw [if_pos hx, List.find?_cons_of_pos rest hx]
      have hz : rest.countP p = 0 := by
        rw [if_pos hx] at h
        omega
      rw [List.countP_eq_zero] at hz
      rw [List.filter_eq_nil_iff.mpr hz]
      rfl
    · rw [if_neg hx, List.find?_cons_of_neg rest hx]
      apply ih
      rw [if_neg hx] at h
      omega

theorem entryNameStr_eq_some_iff {e : Entry} {s : String} :
    entryNameStr e = some s ↔ dget e "Name" = some (PyVal.pstr s) := by
  constructor
  · intro h
    rw [entryNameStr] at h
    cases hd : dget e "Name" with
    | none => rw [hd] at h; cases h
    | some v =>
      cases v <;> rw [hd] at h <;> try cases h
      case mp.some.pstr.refl => rfl
  · intro h
    rw [entryNameStr, h]

theorem getD_mem_of_lt {α : Type} (l : List α) (k : Nat) (d : α) (h : k < l.length) :
    l.getD k d ∈ l := by
  induction l generalizing k with
  | nil => cases h
  | cons x rest ih =>
    cases k with
    | zero => exact List.mem_cons_self _ _
    | succ k' =>
      rw [List.getD_cons_succ]
      exact List.mem_cons_of_mem _ (ih k' (Nat.lt_of_succ_lt_succ h))

theorem named_of_by_name_lookup {existing : List PyVal} {es : List Entry} {k : Nat} {nm : PyVal}
    (hes : entriesOf existing = some es)
    (hlook : alookup (by_name_build existing) nm = some k) :
    k < es.length ∧ dget (es.getD k []) "Name" = some nm := by
  obtain ⟨hklen, d', hd', hname'⟩ := by_name_build_spec hlook
  have hk : k < es.length := by rw [entriesOf_length hes]; exact hklen
  have hgd : existing.getD k PyVal.pnone = PyVal.pdict (es.getD k []) :=
    entriesOf_getD k hes hklen
  rw [hgd] at hd'
  obtain rfl : d' = es.getD k [] := (PyVal.pdict.inj hd').symm
  exact ⟨hk, hname'⟩

theorem by_name_lookup_of_named {existing : List PyVal} {es : List Entry} {k : Nat} {s : String}
    (hes : entriesOf existing = some es)
    (hesnd : (es.filterMap entryNameStr).Nodup)
    (hk : k < es.length)
    (hname : entryNameStr (es.getD k []) = some s) :
    alookup (by_name_build existing) (PyVal.pstr s) = some k := by
  have hklen : k < existing.length := by rw [← entriesOf_length hes]; exact hk
  have hdget : dget (es.getD k []) "Name" = some (PyVal.pstr s) :=
    entryNameStr_eq_some_iff.mp hname
  have hmemx : PyVal.pdict (es.getD k []) ∈ existing := by
    rw [← entriesOf_getD k hes hklen]
    exact getD_mem_of_lt existing k PyVal.pnone hklen
  have hsome : (alookup (by_name_build existing) (PyVal.pstr s)).isSome :=
    by_name_go_exists existing 0 [] (PyVal.pstr s) (Or.inr ⟨es.getD k [], hmemx, hdget⟩)
  obtain ⟨i, hi⟩ := Option.isSome_iff_exists.mp hsome
  obtain ⟨hilen, hinm⟩ := named_of_by_name_lookup hes hi
  have : i = k :=
    filterMap_nodup_getD_unique hesnd i k hilen hk
      (entryNameStr_eq_some_iff.mpr hinm) hname
  rw [← this]
  exact hi

theorem by_name_isSome_iff {existing : List PyVal} {es : List Entry} {s : String}
    (hes : entriesOf existing = some es) :
    (alookup (by_name_build existing) (PyVal.pstr s)).isSome ↔
      ∃ old ∈ es, entryNameStr old = some s := by
  constructor
  · intro h
    obtain ⟨i, hi⟩ := Option.isSome_iff_exists.mp h
    obtain ⟨hilen, hinm⟩ := named_of_by_name_lookup hes hi
    exact ⟨es.getD i [], getD_mem_of_lt es i [] hilen, entryNameStr_eq_some_iff.mpr hinm⟩
  · rintro ⟨old, hmem, hname⟩
    exact by_name_go_exists existing 0 [] (PyVal.pstr s)
      (Or.inr ⟨old, entriesOf_mem hes hmem, entryNameStr_eq_some_iff.mp hname⟩)

/-- A batch entry matches an existing entry when the existing entry's name
    is a string equal to the batch entry's `"Name"` value. -/
def matchesName (old e : Entry) : Bool :=
  match entryNameStr old with
  | some s => decide (dget e "Name" = some (PyVal.pstr s))
  | none => false

theorem matchesName_true_iff {old e : Entry} {t : String}
    (ht : dget e "Name" = some (PyVal.pstr t)) :
    matchesName old e = true ↔ entryNameStr old = some t := by
  rw [matchesName]
  cases hm : entryNameStr old with
  | none => simp
  | some s =>
    simp only [decide_eq_true_eq]
    constructor
    · intro h
      rw [ht] at h
      obtain rfl : t = s := PyVal.pstr.inj (Option.some.inj h)
      rfl
    · intro h
      obtain rfl : s = t := Option.some.inj h
      exact ht

/-- Modelled from the spec, section 4.5: existing entries with an untouched
    name stay as they are, an entry whose name equals a batch entry's name
    is field-merged with that batch entry, and batch entries with genuinely
    new names are appended, in batch order. -/
def expectedUpsert (es news : List Entry) : List Entry :=
  (es.map (fun old =>
    match news.find? (matchesName old) with
    | some e => dictUpdate old e
    | none => old)) ++
  news.filter (fun e => !es.any (fun old => matchesName old e))

theorem countP_matchesName_le_one {news : List Entry} {old : Entry}
    (hnewsnd : (news.filterMap entryNameStr).Nodup)
    (hnews : ∀ e ∈ news, ∃ s, dget e "Name" = some (PyVal.pstr s)) :
    news.countP (matchesName old) ≤ 1 := by
  cases hm : entryNameStr old with
  | none =>
    have : news.countP (matchesName old) = 0 := by
      rw [List.countP_eq_zero]
      intro e _
      rw [matchesName, hm]
      exact Bool.false_ne_true
    omega
  | some s =>
    have hcongr : news.countP (matchesName old) =
        news.countP (fun e => decide (entryNameStr e = some s)) := by
      apply List.countP_congr
      intro e he
      obtain ⟨t, ht⟩ := hnews e he
      rw [matchesName_true_iff ht]
      constructor
      · intro h
        rw [hm] at h
        obtain rfl : s = t := Option.some.inj h
        simp [entryNameStr_eq_some_iff.mpr ht]
      · intro h
        rw [decide_eq_true_eq] at h
        rw [hm]
        rw [entryNameStr_eq_some_iff] at h
        rw [ht] at h
        obtain rfl : t = s := PyVal.pstr.inj (Option.some.inj h)
        rfl
    rw [hcongr]
    by_cases hmem : s ∈ news.filterMap entryNameStr
    · rw [countP_name_eq_one hnewsnd hmem]
    · rw [countP_name_eq_zero hmem]
      omega

theorem newsAt_eq_matches_filter
    {existing : List PyVal} {es news : List Entry} {k : Nat}
    (hes : entriesOf existing = some es)
    (hesnd : (es.filterMap entryNameStr).Nodup)
    (hnews : ∀ e ∈ news, ∃ s, dget e "Name" = some (PyVal.pstr s))
    (hk : k < es.length) :
    newsAt (by_name_build existing) news k = news.filter (matchesName (es.getD k [])) := by
  rw [newsAt]
  apply List.filter_congr
  intro e he
  obtain ⟨t, ht⟩ := hnews e he
  have hkeyV : nameKeyV e = PyVal.pstr t := by rw [nameKeyV, ht]; rfl
  rw [hkeyV]
  have hiff : (alookup (by_name_build existing) (PyVal.pstr t) = some k) ↔
      matchesName (es.getD k []) e = true := by
    constructor
    · intro hlook
      obtain ⟨-, hnm⟩ := named_of_by_name_lookup hes hlook
      exact (matchesName_true_iff ht).mpr (entryNameStr_eq_some_iff.mpr hnm)
    · intro hmatch
      have hnm : entryNameStr (es.getD k []) = some t := (matchesName_true_iff ht).mp hmatch
      exact by_name_lookup_of_named hes hesnd hk hnm
  by_cases h : alookup (by_name_build existing) (PyVal.pstr t) = some k
  · rw [decide_eq_true h, (hiff.mp h)]
  · have : ¬matchesName (es.getD k []) e = true := fun hc => h (hiff.mpr hc)
    rw [decide_eq_false h, Bool.eq_false_iff.mpr this]

theorem list_ext_getD {α : Type} (d : α) :
    ∀ (l1 l2 : List α), l1.length = l2.length →
    (∀ k, k < l1.length → l1.getD k d = l2.getD k d) → l1 = l2 := by
  intro l1
  induction l1 with
  | nil =>
    intro l2 hlen _
    cases l2 with
    | nil => rfl
    | cons y rest2 => simp at hlen
  | cons x rest ih =>
    intro l2 hlen h
    cases l2 with
    | nil => simp at hlen
    | cons y rest2 =>
      have h0 := h 0 (by simp)
      simp only [List.getD_cons_zero] at h0
      rw [h0]
      have hrest : rest = rest2 := by
        apply ih rest2
        · simp only [List.length_cons] at hlen
          omega
        · intro k hk
          have := h (k + 1) (by simp only [List.length_cons]; omega)
          simpa using this
      rw [hrest]

theorem getD_map_of_lt {α β : Type} (f : α → β) (d1 : α) (d2 : β) :
    ∀ (l : List α) (k : Nat), k < l.length → (l.map f).getD k d2 = f (l.getD k d1) := by
  intro l
  induction l with
  | nil => intro k hk; cases hk
  | cons x rest ih =>
    intro k hk
    cases k with
    | zero => rfl
    | succ k' =>
      rw [List.map_cons, List.getD_cons_succ, List.getD_cons_succ]
      exact ih k' (Nat.lt_of_succ_lt_succ hk)

theorem entUpdAllGo_eq_expected_map
    {existing : List PyVal} {es news : List Entry}
    (hes : entriesOf existing = some es)
    (hesnd : (es.filterMap entryNameStr).Nodup)
    (hnews : ∀ e ∈ news, ∃ s, dget e "Name" = some (PyVal.pstr s))
    (hnewsnd : (news.filterMap entryNameStr).Nodup) :
    entUpdAllGo (by_name_build existing) news 0 es =
      es.map (fun old =>
        match news.find? (matchesName old) with
        | some e => dictUpdate old e
        | none => old) := by
  apply list_ext_getD []
  · rw [entUpdAllGo_length, List.length_map]
  · intro k h1
    have hk : k < es.length := by rw [entUpdAllGo_length] at h1; exact h1
    rw [entUpdAllGo_getD _ _ es 0 k hk, Nat.zero_add,
      newsAt_eq_matches_filter hes hesnd hnews hk,
      filter_eq_find_toList (countP_matchesName_le_one hnewsnd hnews),
      getD_map_of_lt _ [] [] es k hk]
    cases news.find? (matchesName (es.getD k [])) with
    | none => rfl
    | some e => rfl

theorem newOnes_eq_matches_filter
    {existing : List PyVal} {es news : List Entry}
    (hes : entriesOf existing = some es)
    (hnews : ∀ e ∈ news, ∃ s, dget e "Name" = some (PyVal.pstr s)) :
    news.filter (fun e => alookup (by_name_build existing) (nameKeyV e) = none) =
      news.filter (fun e => !es.any (fun old => matchesName old e)) := by
  apply List.filter_congr
  intro e he
  obtain ⟨t, ht⟩ := hnews e he
  have hkeyV : nameKeyV e = PyVal.pstr t := by rw [nameKeyV, ht]; rfl
  rw [hkeyV]
  have hiff : (alookup (by_name_build existing) (PyVal.pstr t) = none) ↔
      (es.any (fun old => matchesName old e) = false) := by
    constructor
    · intro hnone
      rw [← Bool.not_eq_true, List.any_eq_true]
      rintro ⟨old, hmem, hmatch⟩
      have : (alookup (by_name_build existing) (PyVal.pstr t)).isSome :=
        (by_name_isSome_iff hes).mpr ⟨old, hmem, (matchesName_true_iff ht).mp hmatch⟩
      rw [hnone] at this
      cases this
    · intro hany
      cases hl : alookup (by_name_build existing) (PyVal.pstr t) with
      | none => rfl
      | some i =>
        exfalso
        have hsome : (alookup (by_name_build existing) (PyVal.pstr t)).isSome := by
          rw [hl]; rfl
        obtain ⟨old, hmem, hname⟩ := (by_name_isSome_iff hes).mp hsome
        have : es.any (fun old => matchesName old e) = true :=
          List.any_eq_true.mpr ⟨old, hmem, (matchesName_true_iff ht).mpr hname⟩
        rw [hany] at this
        cases this
  by_cases h : alookup (by_name_build existing) (PyVal.pstr t) = none
  · rw [decide_eq_true h, hiff.mp h]
    rfl
  · rw [decide_eq_false h]
    have : ¬(es.any (fun old => matchesName old e) = false) := fun hc => h (hiff.mpr hc)
    rw [Bool.not_eq_false] at this
    rw [this]
    rfl

/-- The merge applied to one existing entry preserves its name. -/
theorem expected_map_preserves_name {news : List Entry} (old : Entry)
    (hkeys : ∀ e ∈ news, (dkeys e).Nodup) :
    entryNameStr (match news.find? (matchesName old) with
      | some e => dictUpdate old e
      | none => old) = entryNameStr old := by
  cases hfind : news.find? (matchesName old) with
  | none => rfl
  | some e =>
    have hmatch : matchesName old e = true := List.find?_some hfind
    rw [matchesName] at hmatch
    cases hm : entryNameStr old with
    | none => rw [hm] at hmatch; cases hmatch
    | some s =>
      rw [hm, decide_eq_true_eq] at hmatch
      rw [entryNameStr,
        dget_dictUpdate_of_some old (hkeys e (List.mem_of_find?_eq_some hfind)) hmatch]

/-- Success-path description of `upsert_uplugin_modules` on a manifest
    whose module entries are dicts with pairwise-distinct string names,
    upserting a batch of entries with pairwise-distinct string names. -/
theorem upsert_ok_description
    (uplugin : Dict) (existing : List PyVal) (es news : List Entry)
    (hmod : (dget uplugin "Modules").getD (PyVal.plist []) = PyVal.plist existing)
    (hes : entriesOf existing = some es)
    (hok : es.all nameOk = true)
    (hesnd : (es.filterMap entryNameStr).Nodup)
    (hnews : ∀ e ∈ news, ∃ s, dget e "Name" = some (PyVal.pstr s))
    (hnewsnd : (news.filterMap entryNameStr).Nodup)
    (hkeys : ∀ e ∈ news, (dkeys e).Nodup) :
    upsert_uplugin_modules uplugin news =
      Except.ok (dset uplugin "Modules"
        (PyVal.plist ((pySortByName (expectedUpsert es news)).map PyVal.pdict))) := by
  have hbound : ∀ nm i, alookup (by_name_build existing) nm = some i → i < existing.length :=
    fun nm i h => (by_name_build_spec h).1
  have hnames : ∀ e ∈ news, (dget e "Name").isSome := by
    intro e he
    obtain ⟨s, hs⟩ := hnews e he
    rw [hs]
    rfl
  have hchar := upsertLoop_char (by_name_build existing) news existing hnames hbound
  have hentsA := entriesOf_updAllGo (by_name_build existing) news existing es 0 hes
  have hentsB := entriesOf_map_pdict
    (news.filter (fun e => alookup (by_name_build existing) (nameKeyV e) = none))
  have hents := entriesOf_append hentsA hentsB
  have hexp : entUpdAllGo (by_name_build existing) news 0 es ++
      news.filter (fun e => alookup (by_name_build existing) (nameKeyV e) = none) =
      expectedUpsert es news := by
    rw [entUpdAllGo_eq_expected_map hes hesnd hnews hnewsnd,
      newOnes_eq_matches_filter hes hnews]
    rfl
  rw [hexp] at hents
  have hallok : (expectedUpsert es news).all nameOk = true := by
    rw [List.all_eq_true]
    intro x hx
    rw [expectedUpsert] at hx
    rcases List.mem_append.mp hx with hx | hx
    · obtain ⟨old, hold, hfx⟩ := List.mem_map.mp hx
      rw [← hfx]
      have hpres := expected_map_preserves_name old hkeys
      cases hm : entryNameStr old with
      | some s =>
        rw [hm] at hpres
        exact nameOk_of_name_str (entryNameStr_eq_some_iff.mp hpres)
      | none =>
        cases hfind : news.find? (matchesName old) with
        | none =>
          simp only [hfind]
          exact List.all_eq_true.mp hok old hold
        | some e =>
          exfalso
          have hmatch : matchesName old e = true := List.find?_some hfind
          rw [matchesName, hm] at hmatch
          cases hmatch
    · obtain ⟨s, hs⟩ := hnews x (List.mem_of_mem_filter hx)
      exact nameOk_of_name_str hs
  rw [upsert_unfold uplugin existing news hmod, hchar]
  simp only [hents, hallok, if_pos]

/-- C1 (amended): when the manifest's existing dict entries carry
    pairwise-distinct string names (or no name) and the upserted batch
    carries pairwise-distinct string names, the resulting `Modules` array
    is the stable sort by name of: the existing entries, each field-merged
    with the batch entry of the same name when there is one, followed by
    the batch entries with new names; it is sorted ascending by name and
    holds exactly one entry per distinct module name encountered. -/
theorem upsert_one_entry_per_name
    (uplugin : Dict) (existing : List PyVal) (es news : List Entry)
    (hmod : (dget uplugin "Modules").getD (PyVal.plist []) = PyVal.plist existing)
    (hes : entriesOf existing = some es)
    (hok : es.all nameOk = true)
    (hesnd : (es.filterMap entryNameStr).Nodup)
    (hnews : ∀ e ∈ news, ∃ s, dget e "Name" = some (PyVal.pstr s))
    (hnewsnd : (news.filterMap entryNameStr).Nodup)
    (hkeys : ∀ e ∈ news, (dkeys e).Nodup) :
    ∃ D, upsert_uplugin_modules uplugin news = Except.ok D ∧
      modulesEntriesOf D = pySortByName (expectedUpsert es news) ∧
      (modulesEntriesOf D).Sorted keyLE ∧
      (modulesEntriesOf D).Perm (expectedUpsert es news) ∧
      (∀ n : String, (n ∈ es.filterMap entryNameStr ∨ n ∈ news.filterMap entryNameStr) →
        (modulesEntriesOf D).countP (fun e => decide (entryNameStr e = some n)) = 1) := by
  refine ⟨_, upsert_ok_description uplugin existing es news hmod hes hok hesnd hnews hnewsnd hkeys,
    ?_, ?_, ?_, ?_⟩
  case refine_1 =>
    simp only [modulesEntriesOf, dget_dset_self, entriesOf_map_pdict, Option.getD_some]
  all_goals
    simp only [modulesEntriesOf, dget_dset_self, entriesOf_map_pdict, Option.getD_some]
  case refine_2 => exact List.sorted_insertionSort keyLE (expectedUpsert es news)
  case refine_3 => exact List.perm_insertionSort keyLE (expectedUpsert es news)
  case refine_4 =>
    intro n hn
    rw [pySortByName, (List.perm_insertionSort keyLE (expectedUpsert es news)).countP_eq]
    rw [expectedUpsert, List.countP_append, List.countP_map]
    have hmapped : List.countP
        ((fun e => decide (entryNameStr e = some n)) ∘ (fun old =>
          match news.find? (matchesName old) with
          | some e => dictUpdate old e
          | none => old)) es =
        List.countP (fun e => decide (entryNameStr e = some n)) es := by
      apply List.countP_congr
      intro old _
      simp only [Function.comp_apply]
      rw [expected_map_preserves_name old hkeys]
    rw [hmapped]
    have hfilter := @List.countP_filter Entry
      (fun e => decide (entryNameStr e = some n))
      (fun e => !es.any (fun old => matchesName old e)) news
    by_cases hmemE : n ∈ es.filterMap entryNameStr
    · rw [countP_name_eq_one hesnd hmemE]
      have hzero : List.countP (fun e => decide (entryNameStr e = some n))
          (news.filter (fun e => !es.any (fun old => matchesName old e))) = 0 := by
        rw [hfilter, List.countP_eq_zero]
        intro e he
        rw [Bool.and_eq_true, decide_eq_true_eq, Bool.not_eq_true']
        rintro ⟨hp, hq⟩
        obtain ⟨old, holdmem, holdname⟩ := List.mem_filterMap.mp hmemE
        have hmatch : matchesName old e = true :=
          (matchesName_true_iff (entryNameStr_eq_some_iff.mp hp)).mpr holdname
        have : es.any (fun old => matchesName old e) = true :=
          List.any_eq_true.mpr ⟨old, holdmem, hmatch⟩
        rw [hq] at this
        cases this
      rw [hzero]
    · rcases hn with hn | hn
      · exact absurd hn hmemE
      rw [countP_name_eq_zero hmemE, hfilter]
      have hcongr : List.countP
          (fun e => decide (entryNameStr e = some n) &&
            !es.any (fun old => matchesName old e)) news =
          List.countP (fun e => decide (entryNameStr e = some n)) news := by
        apply List.countP_congr
        intro e _
        rw [Bool.and_eq_true]
        constructor
        · rintro ⟨hp, _⟩
          exact hp
        · intro hp
          refine ⟨hp, ?_⟩
          rw [decide_eq_true_eq] at hp
          have hany : es.any (fun old => matchesName old e) = false := by
            rw [Bool.eq_false_iff]
            intro hc
            obtain ⟨old, holdmem, hmatch⟩ := List.any_eq_true.mp hc
            have holdname : entryNameStr old = some n :=
              (matchesName_true_iff (entryNameStr_eq_some_iff.mp hp)).mp hmatch
            exact hmemE (List.mem_filterMap.mpr ⟨old, holdmem, holdname⟩)
          rw [hany]
          rfl
      rw [hcongr, countP_name_eq_one hnewsnd hn]

/-- Counterexample to C1 as stated: a manifest whose `Modules` array
    already holds two entries named `"X"` (the code accepts pre-existing
    duplicates), upserted with a batch entry named `"X"`, still holds two
    entries named `"X"` afterwards — not exactly one per distinct name. -/
theorem upsert_duplicate_names_counterexample :
    ∃ D, upsert_uplugin_modules
        [("Modules", PyVal.plist
          [PyVal.pdict [("Name", PyVal.pstr "X"), ("a", PyVal.pint 1)],
           PyVal.pdict [("Name", PyVal.pstr "X"), ("b", PyVal.pint 2)]])]
        [[("Name", PyVal.pstr "X"), ("Type", PyVal.pstr "Runtime")]] = Except.ok D ∧
      ¬((modulesEntriesOf D).countP (fun e => decide (entryNameStr e = some "X")) = 1) ∧
      (modulesEntriesOf D).countP (fun e => decide (entryNameStr e = some "X")) = 2 := by
  exact ⟨_, rfl, by decide, by decide⟩

/-- Witness for C1 at a concrete manifest: an existing entry `"X"` and a
    batch with a matching `"X"` and a new `"Y"`. -/
theorem upsert_one_entry_per_name_witness :
    ∃ D, upsert_uplugin_modules
        [("Modules", PyVal.plist [PyVal.pdict [("Name", PyVal.pstr "X"), ("Foo", PyVal.pstr "bar")]])]
        [[("Name", PyVal.pstr "Y"), ("Type", PyVal.pstr "Runtime")],
         [("Name", PyVal.pstr "X"), ("Type", PyVal.pstr "Runtime")]] = Except.ok D ∧
      modulesEntriesOf D = pySortByName (expectedUpsert
        [[("Name", PyVal.pstr "X"), ("Foo", PyVal.pstr "bar")]]
        [[("Name", PyVal.pstr "Y"), ("Type", PyVal.pstr "Runtime")],
         [("Name", PyVal.pstr "X"), ("Type", PyVal.pstr "Runtime")]]) ∧
      (modulesEntriesOf D).Sorted keyLE ∧
      (modulesEntriesOf D).Perm (expectedUpsert
        [[("Name", PyVal.pstr "X"), ("Foo", PyVal.pstr "bar")]]
        [[("Name", PyVal.pstr "Y"), ("Type", PyVal.pstr "Runtime")],
         [("Name", PyVal.pstr "X"), ("Type", PyVal.pstr "Runtime")]]) ∧
      (∀ n : String,
        (n ∈ ([[("Name", PyVal.pstr "X"), ("Foo", PyVal.pstr "bar")]] : List Entry).filterMap entryNameStr ∨
         n ∈ ([[("Name", PyVal.pstr "Y"), ("Type", PyVal.pstr "Runtime")],
               [("Name", PyVal.pstr "X"), ("Type", PyVal.pstr "Runtime")]] : List Entry).filterMap entryNameStr) →
        (modulesEntriesOf D).countP (fun e => decide (entryNameStr e = some n)) = 1) :=
  upsert_one_entry_per_name _ _ _ _ rfl rfl (by decide) (by decide)
    (by
      intro e he
      rcases List.mem_cons.mp he with rfl | he
      · exact ⟨"Y", rfl⟩
      rcases List.mem_cons.mp he with rfl | he
      · exact ⟨"X", rfl⟩
      cases he)
    (by decide) (by decide)

theorem m_entry_name (module_name : String) (rt : Bool) (desc : String) :
    dget (m_entry_of module_name rt desc) "Name" = some (PyVal.pstr module_name) := rfl

theorem m_entry_keys_nodup (module_name : String) (rt : Bool) (desc : String) :
    (dkeys (m_entry_of module_name rt desc)).Nodup := by
  rw [m_entry_of]
  by_cases hd : desc ≠ ""
  · rw [if_pos hd]
    show (["Name", "Type", "LoadingPhase", "Description"] : List String).Nodup
    decide
  · rw [if_neg hd]
    show (["Name", "Type", "LoadingPhase"] : List String).Nodup
    decide

/-- The manifest entries collected by a successful module loop: one per
    table row, named by the module name, with unique dict keys. -/
theorem moduleLoop_entries (sroot : String) (pubD privD : List String)
    (failsAt : String → Bool) :
    ∀ (defs : List (String × PyVal)) (tr : List Effect) (ents : List Entry),
    moduleLoop sroot pubD privD failsAt defs = Except.ok (tr, ents) →
    ents.filterMap entryNameStr = defs.map Prod.fst ∧
    (∀ e ∈ ents, ∃ s, dget e "Name" = some (PyVal.pstr s)) ∧
    (∀ e ∈ ents, (dkeys e).Nodup) := by
  intro defs
  induction defs with
  | nil =>
    intro tr ents h
    obtain ⟨-, h2⟩ := Prod.mk.inj (Except.ok.inj h)
    rw [← h2]
    exact ⟨rfl, fun e he => absurd he (List.not_mem_nil e),
      fun e he => absurd he (List.not_mem_nil e)⟩
  | cons pe rest ih =>
    obtain ⟨mname, entry⟩ := pe
    intro tr ents h
    rw [moduleLoop] at h
    cases hu : unpackEntry entry with
    | none =>
      simp only [hu] at h
      exact Except.noConfusion h
    | some t =>
      obtain ⟨is_rt, desc, pub, priv⟩ := t
      simp only [hu] at h
      cases hpub : depStrings pub with
      | error e0 =>
        simp only [hpub] at h
        exact Except.noConfusion h
      | ok pub_deps =>
        cases hpriv : depStrings priv with
        | error e0 =>
          simp only [hpub, hpriv] at h
          exact Except.noConfusion h
        | ok priv_deps =>
          simp only [hpub, hpriv] at h
          cases hat : attemptWrites failsAt
              (write_module_files sroot mname
                (module_merged pubD privD pub_deps priv_deps).1
                (module_merged pubD privD pub_deps priv_deps).2) with
          | mk done okb =>
            simp only [hat] at h
            cases okb with
            | false => exact Except.noConfusion h
            | true =>
              cases hml : moduleLoop sroot pubD privD failsAt rest with
              | error pr =>
                obtain ⟨tr2, e2⟩ := pr
                simp only [hml] at h
                exact Except.noConfusion h
              | ok pr =>
                obtain ⟨tr2, ents2⟩ := pr
                simp only [hml] at h
                obtain ⟨-, h2⟩ := Prod.mk.inj (Except.ok.inj h)
                obtain ⟨hfm, hnm, hkeys⟩ := ih tr2 ents2 hml
                rw [← h2]
                refine ⟨?_, ?_, ?_⟩
                · rw [List.filterMap_cons, List.map_cons]
                  have hname : entryNameStr (m_entry_of mname is_rt desc) = some mname :=
                    entryNameStr_eq_some_iff.mpr (m_entry_name mname is_rt desc)
                  rw [hname, hfm]
                · intro e he
                  rcases List.mem_cons.mp he with rfl | he2
                  · exact ⟨mname, m_entry_name mname is_rt desc⟩
                  · exact hnm e he2
                · intro e he
                  rcases List.mem_cons.mp he with rfl | he2
                  · exact m_entry_keys_nodup mname is_rt desc
                  · exact hkeys e he2

/-- Some entry of the expected upsert result carries each batch name. -/
theorem expected_has_name {es news : List Entry} {e : Entry} {n : String}
    (hkeys : ∀ e' ∈ news, (dkeys e').Nodup)
    (he : e ∈ news) (hn : dget e "Name" = some (PyVal.pstr n)) :
    ∃ w ∈ expectedUpsert es news, entryNameStr w = some n := by
  by_cases hany : es.any (fun old => matchesName old e) = true
  · obtain ⟨old, holdmem, hmatch⟩ := List.any_eq_true.mp hany
    refine ⟨(match news.find? (matchesName old) with
             | some e' => dictUpdate old e'
             | none => old), ?_, ?_⟩
    · rw [expectedUpsert]
      exact List.mem_append_left _ (List.mem_map_of_mem _ holdmem)
    · rw [expected_map_preserves_name old hkeys]
      exact (matchesName_true_iff hn).mp hmatch
  · refine ⟨e, ?_, entryNameStr_eq_some_iff.mpr hn⟩
    rw [expectedUpsert]
    apply List.mem_append_right
    apply List.mem_filter.mpr
    refine ⟨he, ?_⟩
    rw [Bool.eq_false_iff.mpr hany]
    rfl

/-- Every expected-result entry that carries a batch entry's name already
    holds all of that batch entry's pairs: updating it again is a no-op. -/
theorem expected_absorb {es news : List Entry} {e w : Entry} {n : String}
    (hnewsnd : (news.filterMap entryNameStr).Nodup)
    (hkeys : ∀ e' ∈ news, (dkeys e').Nodup)
    (he : e ∈ news) (hn : dget e "Name" = some (PyVal.pstr n))
    (hw : w ∈ expectedUpsert es news) (hwname : entryNameStr w = some n) :
    dictUpdate w e = w := by
  rw [expectedUpsert] at hw
  rcases List.mem_append.mp hw with hw | hw
  · obtain ⟨old, holdmem, hfw⟩ := List.mem_map.mp hw
    have hpres := expected_map_preserves_name old hkeys
    rw [hfw] at hpres
    have holdname : entryNameStr old = some n := by rw [← hpres, hwname]
    cases hfind : news.find? (matchesName old) with
    | none =>
      exfalso
      have hmatch : matchesName old e = true := (matchesName_true_iff hn).mpr holdname
      exact (List.find?_eq_none.mp hfind e he) hmatch
    | some e' =>
      rw [hfind] at hfw
      have hmatch' : matchesName old e' = true := List.find?_some hfind
      have he'name : dget e' "Name" = some (PyVal.pstr n) := by
        rw [matchesName, holdname, decide_eq_true_eq] at hmatch'
        exact hmatch'
      have hee' : e' = e := filterMap_nodup_unique hnewsnd
        (List.mem_of_find?_eq_some hfind) he
        (entryNameStr_eq_some_iff.mpr he'name) (entryNameStr_eq_some_iff.mpr hn)
      rw [hee'] at hfw
      rw [← hfw]
      apply dictUpdate_absorb
      intro p hp
      obtain ⟨p1, p2⟩ := p
      exact uniform_after_update old (hkeys e he) hp
  · have hwnews : w ∈ news := List.mem_of_mem_filter hw
    have hwe : w = e := filterMap_nodup_unique hnewsnd hwnews he hwname
      (entryNameStr_eq_some_iff.mpr hn)
    rw [hwe]
    apply dictUpdate_absorb
    intro p hp
    obtain ⟨p1, p2⟩ := p
    exact uniform_of_mem (hkeys e he) hp

/-- All names of the expected upsert result are strings or absent. -/
theorem expected_all_nameOk {es news : List Entry}
    (hok : es.all nameOk = true)
    (hnews : ∀ e ∈ news, ∃ s, dget e "Name" = some (PyVal.pstr s))
    (hkeys : ∀ e ∈ news, (dkeys e).Nodup) :
    (expectedUpsert es news).all nameOk = true := by
  rw [List.all_eq_true]
  intro x hx
  rw [expectedUpsert] at hx
  rcases List.mem_append.mp hx with hx | hx
  · obtain ⟨old, hold, hfx⟩ := List.mem_map.mp hx
    rw [← hfx]
    have hpres := expected_map_preserves_name old hkeys
    cases hm : entryNameStr old with
    | some s =>
      rw [hm] at hpres
      exact nameOk_of_name_str (entryNameStr_eq_some_iff.mp hpres)
    | none =>
      cases hfind : news.find? (matchesName old) with
      | none =>
        simp only [hfind]
        exact List.all_eq_true.mp hok old hold
      | some e =>
        exfalso
        have hmatch : matchesName old e = true := List.find?_some hfind
        rw [matchesName, hm] at hmatch
        cases hmatch
  · obtain ⟨s, hs⟩ := hnews x (List.mem_of_mem_filter hx)
    exact nameOk_of_name_str hs

/-- An upsert loop all of whose steps hit an index whose update is a no-op
    leaves the array unchanged. -/
theorem upsertLoop_identity (byName : List (PyVal × Nat)) (arr : List PyVal) :
    ∀ (news : List Entry),
    (∀ e ∈ news, ∃ n, dget e "Name" = some (PyVal.pstr n) ∧
      (alookup byName (PyVal.pstr n)).isSome ∧
      (∀ i, alookup byName (PyVal.pstr n) = some i →
        arr.set i (updateAt (arr.getD i PyVal.pnone) e) = arr)) →
    upsertLoop byName arr news = Except.ok arr := by
  intro news
  induction news with
  | nil => intro _; rfl
  | cons e rest ih =>
    intro h
    obtain ⟨n, hn, hsome, hset⟩ := h e (List.mem_cons_self _ _)
    obtain ⟨i, hi⟩ := Option.isSome_iff_exists.mp hsome
    have hstep : upsertLoop byName arr (e :: rest) =
        upsertLoop byName (arr.set i (updateAt (arr.getD i PyVal.pnone) e)) rest := by
      simp only [upsertLoop, hn, hi]
    rw [hstep, hset i hi]
    exact ih (fun e' he' => h e' (List.mem_cons_of_mem _ he'))

/-- Upserting the same batch into the result of an upsert changes nothing:
    every batch entry merges into an entry that already holds its fields,
    the array is already sorted, and the `Modules` key already holds the
    array. -/
theorem upsert_idempotent (uplugin : Dict) (es news : List Entry)
    (hok : es.all nameOk = true)
    (hnews : ∀ e ∈ news, ∃ s, dget e "Name" = some (PyVal.pstr s))
    (hnewsnd : (news.filterMap entryNameStr).Nodup)
    (hkeys : ∀ e ∈ news, (dkeys e).Nodup) :
    upsert_uplugin_modules
        (dset uplugin "Modules"
          (PyVal.plist ((pySortByName (expectedUpsert es news)).map PyVal.pdict))) news =
      Except.ok (dset uplugin "Modules"
        (PyVal.plist ((pySortByName (expectedUpsert es news)).map PyVal.pdict))) := by
  set sortedEs := pySortByName (expectedUpsert es news) with hsortedEs
  set D := dset uplugin "Modules" (PyVal.plist (sortedEs.map PyVal.pdict)) with hD
  have hmod1 : (dget D "Modules").getD (PyVal.plist []) = PyVal.plist (sortedEs.map PyVal.pdict) := by
    rw [hD, dget_dset_self]
    rfl
  have hents1 : entriesOf (sortedEs.map PyVal.pdict) = some sortedEs := entriesOf_map_pdict _
  have hsortmem : ∀ w, w ∈ sortedEs ↔ w ∈ expectedUpsert es news := by
    intro w
    rw [hsortedEs, pySortByName, List.mem_insertionSort keyLE]
  have hloopid : upsertLoop (by_name_build (sortedEs.map PyVal.pdict))
      (sortedEs.map PyVal.pdict) news = Except.ok (sortedEs.map PyVal.pdict) := by
    apply upsertLoop_identity
    intro e he
    obtain ⟨n, hn⟩ := hnews e he
    refine ⟨n, hn, ?_, ?_⟩
    · rw [by_name_isSome_iff hents1]
      obtain ⟨w, hw, hwname⟩ := @expected_has_name es news e n hkeys he hn
      exact ⟨w, (hsortmem w).mpr hw, hwname⟩
    · intro i hi
      obtain ⟨hilen, hinm⟩ := named_of_by_name_lookup hents1 hi
      have hwmem : sortedEs.getD i [] ∈ expectedUpsert es news :=
        (hsortmem _).mp (getD_mem_of_lt sortedEs i [] hilen)
      have habs : dictUpdate (sortedEs.getD i []) e = sortedEs.getD i [] :=
        expected_absorb hnewsnd hkeys he hn hwmem (entryNameStr_eq_some_iff.mpr hinm)
      have hgetd : (sortedEs.map PyVal.pdict).getD i PyVal.pnone =
          PyVal.pdict (sortedEs.getD i []) :=
        getD_map_of_lt PyVal.pdict [] PyVal.pnone sortedEs i hilen
      rw [hgetd]
      have hupd : updateAt (PyVal.pdict (sortedEs.getD i [])) e =
          PyVal.pdict (sortedEs.getD i []) := by
        rw [updateAt, habs]
      rw [hupd, ← hgetd]
      exact set_getD_self _ i _ (by rw [List.length_map]; exact hilen)
  have hallok : sortedEs.all nameOk = true := by
    rw [List.all_eq_true]
    intro w hw
    exact List.all_eq_true.mp (expected_all_nameOk hok hnews hkeys) w ((hsortmem w).mp hw)
  have hfix : pySortByName sortedEs = sortedEs := by
    rw [hsortedEs]
    exact List.Sorted.insertionSort_eq (List.sorted_insertionSort keyLE _)
  rw [upsert_unfold D (sortedEs.map PyVal.pdict) news hmod1, hloopid]
  simp only [hents1, hallok, if_pos, hfix]
  rw [hD]
  have huniform : UniformKey D "Modules" (PyVal.plist (sortedEs.map PyVal.pdict)) := by
    rw [hD]
    exact uniform_dset_self uplugin "Modules" (PyVal.plist (sortedEs.map PyVal.pdict))
  rw [← hD, dset_absorb huniform]

/-- The trace of effects a (possibly failed) module loop performed. -/
def loopTrace : Except (List Effect × String) (List Effect × List Entry) → List Effect
  | Except.error (tr, _) => tr
  | Except.ok (tr, _) => tr

theorem fwrites_no_mwrite (ws : List (String × String)) (p : String) (d : Dict) :
    Effect.mwrite p d ∉ fwrites ws := by
  intro h
  rw [fwrites] at h
  obtain ⟨pc, _, heq⟩ := List.mem_map.mp h
  cases heq

/-- The per-module loop performs file writes only, never a manifest write,
    whether it completes or aborts. -/
theorem moduleLoop_no_mwrite (sroot : String) (pubD privD : List String)
    (failsAt : String → Bool) :
    ∀ (defs : List (String × PyVal)) (p : String) (d : Dict),
    Effect.mwrite p d ∉ loopTrace (moduleLoop sroot pubD privD failsAt defs) := by
  intro defs
  induction defs with
  | nil =>
    intro p d h
    simp [moduleLoop, loopTrace] at h
  | cons pe rest ih =>
    obtain ⟨mname, entry⟩ := pe
    intro p d
    rw [moduleLoop]
    cases hu : unpackEntry entry with
    | none => simp [loopTrace]
    | some t =>
      obtain ⟨is_rt, desc, pub, priv⟩ := t
      cases hpub : depStrings pub with
      | error e => simp [loopTrace, hpub]
      | ok pub_deps =>
        cases hpriv : depStrings priv with
        | error e => simp [loopTrace, hpub, hpriv]
        | ok priv_deps =>
          simp only [hpub, hpriv]
          cases hat : attemptWrites failsAt
              (write_module_files sroot mname
                (module_merged pubD privD pub_deps priv_deps).1
                (module_merged pubD privD pub_deps priv_deps).2) with
          | mk done okb =>
            cases okb with
            | false =>
              simp only [loopTrace]
              exact fwrites_no_mwrite done p d
            | true =>
              cases hml : moduleLoop sroot pubD privD failsAt rest with
              | error pr =>
                obtain ⟨tr2, e2⟩ := pr
                simp only [loopTrace, List.mem_append]
                intro hmem
                rcases hmem with hmem | hmem
                · exact fwrites_no_mwrite done p d hmem
                · have := ih p d
                  rw [hml] at this
                  exact this hmem
              | ok pr =>
                obtain ⟨tr2, ents⟩ := pr
                simp only [loopTrace, List.mem_append]
                intro hmem
                rcases hmem with hmem | hmem
                · exact fwrites_no_mwrite done p d hmem
                · have := ih p d
                  rw [hml] at this
                  exact this hmem

/-- C7: a run that fails (in particular one aborted by a file-write error
    inside the per-module loop) never writes the manifest; a successful
    run writes the manifest exactly once, as the last effect, after all
    file writes. -/
theorem failure_leaves_manifest_untouched
    (defs : List (String × PyVal)) (pubD privD : List String)
    (upath sroot : String) (uplugin : Dict) (failsAt : String → Bool) :
    (∀ tr msg, mainRun defs pubD privD upath sroot uplugin failsAt = (tr, Except.error msg) →
      ∀ p d, Effect.mwrite p d ∉ tr) ∧
    (∀ tr, mainRun defs pubD privD upath sroot uplugin failsAt = (tr, Except.ok ()) →
      ∃ tr0 d, tr = tr0 ++ [Effect.mwrite upath d] ∧
        ∀ p d', Effect.mwrite p d' ∉ tr0) := by
  cases hval : validate_definitions defs with
  | error e =>
    have hmain : mainRun defs pubD privD upath sroot uplugin failsAt =
        ([], Except.error e) := by
      simp only [mainRun, hval]
    constructor
    · intro tr msg h p d
      rw [hmain] at h
      obtain ⟨h1, -⟩ := Prod.mk.inj h
      rw [← h1]
      exact List.not_mem_nil _
    · intro tr h
      rw [hmain] at h
      cases (Prod.mk.inj h).2
  | ok u =>
    cases hml : moduleLoop sroot pubD privD failsAt defs with
    | error pr =>
      obtain ⟨tr1, e1⟩ := pr
      have hnom : ∀ p d, Effect.mwrite p d ∉ tr1 := by
        intro p d
        have hx := moduleLoop_no_mwrite sroot pubD privD failsAt defs p d
        rw [hml] at hx
        exact hx
      have hmain : mainRun defs pubD privD upath sroot uplugin failsAt =
          (tr1, Except.error e1) := by
        simp only [mainRun, hval, hml]
      constructor
      · intro tr msg h p d
        rw [hmain] at h
        obtain ⟨h1, -⟩ := Prod.mk.inj h
        rw [← h1]
        exact hnom p d
      · intro tr h
        rw [hmain] at h
        cases (Prod.mk.inj h).2
    | ok pr =>
      obtain ⟨tr1, ents⟩ := pr
      have hnom : ∀ p d, Effect.mwrite p d ∉ tr1 := by
        intro p d
        have hx := moduleLoop_no_mwrite sroot pubD privD failsAt defs p d
        rw [hml] at hx
        exact hx
      cases hup : upsert_uplugin_modules uplugin ents with
      | error e =>
        have hmain : mainRun defs pubD privD upath sroot uplugin failsAt =
            (tr1, Except.error e) := by
          simp only [mainRun, hval, hml, hup]
        constructor
        · intro tr msg h p d
          rw [hmain] at h
          obtain ⟨h1, -⟩ := Prod.mk.inj h
          rw [← h1]
          exact hnom p d
        · intro tr h
          rw [hmain] at h
          cases (Prod.mk.inj h).2
      | ok d0 =>
        have hmain : mainRun defs pubD privD upath sroot uplugin failsAt =
            (tr1 ++ [Effect.mwrite upath d0], Except.ok ()) := by
          simp only [mainRun, hval, hml, hup]
        constructor
        · intro tr msg h p d
          rw [hmain] at h
          cases (Prod.mk.inj h).2
        · intro tr h
          rw [hmain] at h
          obtain ⟨h1, -⟩ := Prod.mk.inj h
          rw [← h1]
          exact ⟨tr1, d0, rfl, hnom⟩

/-- Witness for C7: a two-module run whose second module's build file write
    fails reports the write error and its trace holds no manifest write. -/
theorem failure_leaves_manifest_untouched_witness :
    (mainRun [("A", mkDef true "" [] []), ("B", mkDef true "" [] [])] [] []
        "u.uplugin" "S" [] (fun p => p == "S/B/B.Build.cs")).2 =
      Except.error "IOError: write failed" ∧
    ∀ p d, Effect.mwrite p d ∉
      (mainRun [("A", mkDef true "" [] []), ("B", mkDef true "" [] [])] [] []
        "u.uplugin" "S" [] (fun p => p == "S/B/B.Build.cs")).1 :=
  ⟨rfl, fun p d =>
    (failure_leaves_manifest_untouched
        [("A", mkDef true "" [] []), ("B", mkDef true "" [] [])] [] []
        "u.uplugin" "S" [] (fun p => p == "S/B/B.Build.cs")).1
      _ "IOError: write failed" rfl p d⟩

/-- Witness for C4: a module whose public dependency field is the single
    string `"Core"` is rejected before any effect happens. -/
theorem validation_rejects_and_aborts_witness :
    (∃ p ∈ [("Bad", PyVal.plist
        [PyVal.pbool true, PyVal.pstr "", PyVal.pstr "Core", PyVal.plist []])],
      entryOk p.2 = false) ∧
    (∃ name entry rest,
      (name, entry) ∈ [("Bad", PyVal.plist
          [PyVal.pbool true, PyVal.pstr "", PyVal.pstr "Core", PyVal.plist []])] ∧
      entryOk entry = false ∧
      validate_definitions [("Bad", PyVal.plist
          [PyVal.pbool true, PyVal.pstr "", PyVal.pstr "Core", PyVal.plist []])] =
        Except.error (modMsg name ++ rest) ∧
      ∀ pubD privD upath sroot uplugin failsAt,
        mainRun [("Bad", PyVal.plist
            [PyVal.pbool true, PyVal.pstr "", PyVal.pstr "Core", PyVal.plist []])]
          pubD privD upath sroot uplugin failsAt =
          ([], Except.error (modMsg name ++ rest))) :=
  ⟨by decide, validation_rejects_and_aborts _ (by decide)⟩

def noFail : String → Bool := fun _ => false

/-- The outcome of `main` on given inputs when no write fails: the
    generated file contents in write order, and the manifest written at
    the end. -/
def mainResult (defs : List (String × PyVal)) (pubD privD : List String)
    (sroot : String) (uplugin : Dict) : Except String (List (String × String) × Dict) :=
  match validate_definitions defs with
  | Except.error e => Except.error e
  | Except.ok _ =>
    match moduleLoop sroot pubD privD noFail defs with
    | Except.error (_, e) => Except.error e
    | Except.ok (tr, entries) =>
      match upsert_uplugin_modules uplugin entries with
      | Except.error e => Except.error e
      | Except.ok d => Except.ok (fileWritesOf tr, d)

/-- C6: running the full orchestration twice with identical input is
    idempotent.  Provided the module table's names are distinct and the
    manifest's `Modules` array holds dict entries with pairwise-distinct
    string names, a second run over the manifest produced by the first
    run yields byte-identical generated file contents and the same
    manifest. -/
theorem main_idempotent
    (defs : List (String × PyVal)) (pubD privD : List String) (sroot : String)
    (M0 : Dict) (existing : List PyVal) (es : List Entry)
    (files : List (String × String)) (M1 : Dict)
    (hdefs : (defs.map Prod.fst).Nodup)
    (hmod : (dget M0 "Modules").getD (PyVal.plist []) = PyVal.plist existing)
    (hes : entriesOf existing = some es)
    (hok : es.all nameOk = true)
    (hesnd : (es.filterMap entryNameStr).Nodup)
    (h1 : mainResult defs pubD privD sroot M0 = Except.ok (files, M1)) :
    mainResult defs pubD privD sroot M1 = Except.ok (files, M1) := by
  rw [mainResult] at h1 ⊢
  cases hval : validate_definitions defs with
  | error e =>
    simp only [hval] at h1
    exact Except.noConfusion h1
  | ok u =>
    simp only [hval] at h1 ⊢
    cases hml : moduleLoop sroot pubD privD noFail defs with
    | error pr =>
      obtain ⟨tr0, e0⟩ := pr
      simp only [hml] at h1
      exact Except.noConfusion h1
    | ok pr =>
      obtain ⟨tr, ents⟩ := pr
      simp only [hml] at h1 ⊢
      obtain ⟨hfm, hnewsA, hkeysA⟩ := moduleLoop_entries sroot pubD privD noFail defs tr ents hml
      have hnewsnd : (ents.filterMap entryNameStr).Nodup := by
        rw [hfm]
        exact hdefs
      have hup : upsert_uplugin_modules M0 ents =
          Except.ok (dset M0 "Modules"
            (PyVal.plist ((pySortByName (expectedUpsert es ents)).map PyVal.pdict))) :=
        upsert_ok_description M0 existing es ents hmod hes hok hesnd hnewsA hnewsnd hkeysA
      simp only [hup] at h1
      obtain ⟨hfiles, hM1⟩ := Prod.mk.inj (Except.ok.inj h1)
      have hid : upsert_uplugin_modules
          (dset M0 "Modules"
            (PyVal.plist ((pySortByName (expectedUpsert es ents)).map PyVal.pdict))) ents =
          Except.ok (dset M0 "Modules"
            (PyVal.plist ((pySortByName (expectedUpsert es ents)).map PyVal.pdict))) :=
        upsert_idempotent M0 es ents hok hnewsA hnewsnd hkeysA
      rw [← hM1, hid, hfiles]

/-- Witness for C6: a one-module table over an empty-`Modules` manifest;
    the second run reproduces the first run's files and manifest. -/
theorem main_idempotent_witness :
    ∃ files M1,
      mainResult [("A", mkDef true "" [] [])] ["Core"] [] "S"
        [("Modules", PyVal.plist [])] = Except.ok (files, M1) ∧
      mainResult [("A", mkDef true "" [] [])] ["Core"] [] "S" M1 =
        Except.ok (files, M1) :=
  ⟨_, _, rfl,
    main_idempotent [("A", mkDef true "" [] [])] ["Core"] [] "S"
      [("Modules", PyVal.plist [])] [] [] _ _ (by decide) rfl rfl (by decide) (by decide) rfl⟩

end BMC
